import Mathlib

/-!
Verification development for the `trustme` certificate library
(`src/trustme/__init__.py`).  The Python source is shallowly embedded:
pure helpers become Lean functions, the mutable object graph of `CA`
instances becomes an explicit heap, and calls into external libraries
(`ipaddress`, `idna`, `cryptography`) are modelled by executable Lean
functions that follow those libraries' documented parsing and encoding
algorithms on the fragment the source exercises.
-/

namespace Trustme

/-! ### Character and list utilities (modelling Python `str` operations) -/

/-- Python `str.split(sep)` for a one-character separator, on code points. -/
def splitOnChar (sep : Char) : List Char → List (List Char)
  | [] => [[]]
  | c :: rest =>
    let r := splitOnChar sep rest
    if c = sep then [] :: r
    else
      match r with
      | [] => [[c]]
      | h :: t => (c :: h) :: t

def isDecDigit (c : Char) : Bool := '0' ≤ c && c ≤ '9'

def decDigitVal (c : Char) : Nat := c.toNat - '0'.toNat

def decVal (s : List Char) : Nat := s.foldl (fun a c => a * 10 + decDigitVal c) 0

def isHexDig (c : Char) : Bool :=
  isDecDigit c || ('a' ≤ c && c ≤ 'f') || ('A' ≤ c && c ≤ 'F')

def hexDigitVal (c : Char) : Nat :=
  if isDecDigit c then decDigitVal c
  else if 'a' ≤ c && c ≤ 'f' then c.toNat - 'a'.toNat + 10
  else c.toNat - 'A'.toNat + 10

def hexVal (s : List Char) : Nat := s.foldl (fun a c => a * 16 + hexDigitVal c) 0

def hexChar (d : Nat) : Char :=
  if d < 10 then Char.ofNat ('0'.toNat + d) else Char.ofNat ('a'.toNat + d - 10)

def natToHexCharsAux : Nat → Nat → List Char
  | 0, _ => []
  | fuel + 1, n => if n = 0 then [] else natToHexCharsAux fuel (n / 16) ++ [hexChar (n % 16)]

/-- Python `'%x' % n` (lower-case hex, no leading zeros). -/
def natToHexChars (n : Nat) : List Char :=
  if n = 0 then ['0'] else natToHexCharsAux 8 n

/-! ### Model of the Python `ipaddress` module (external collaborator)

Only string parsing is needed.  The functions below follow the CPython
`ipaddress` implementation: `_BaseV4._parse_octet`/`_ip_int_from_string`,
`_BaseV6._ip_int_from_string`, the `_make_netmask` prefix handling and the
strict host-bits check of the network constructors. -/

/-- `_BaseV4._parse_octet`: nonempty, decimal digits only, at most 3
characters, value at most 255. -/
def parseOctet (s : List Char) : Option Nat :=
  if s.isEmpty then none
  else if !(s.all isDecDigit) then none
  else if s.length > 3 then none
  else if decVal s > 255 then none
  else some (decVal s)

/-- `_BaseV4._ip_int_from_string`: exactly four dot-separated octets. -/
def parseIPv4 (s : List Char) : Option Nat :=
  match (splitOnChar '.' s).mapM parseOctet with
  | some [a, b, c, d] => some (((a * 256 + b) * 256 + c) * 256 + d)
  | _ => none

/-- `_BaseV6._parse_hextet`: hex digits only, at most 4 characters. -/
def parseHextet (s : List Char) : Option Nat :=
  if s.isEmpty then none
  else if !(s.all isHexDig) then none
  else if s.length > 4 then none
  else some (hexVal s)

/-- `_BaseV6._ip_int_from_string`: split on `:`, at least 3 parts, an
optional embedded IPv4 tail, at most one `::` run, and the high/low
hextet assembly around the skipped zero groups. -/
def parseIPv6 (s : List Char) : Option Nat :=
  if s.isEmpty then none else
  let parts0 := splitOnChar ':' s
  if parts0.length < 3 then none else
  let partsOpt : Option (List (List Char)) :=
    match parts0.getLast? with
    | none => none
    | some last =>
      if last.contains '.' then
        match parseIPv4 last with
        | some v4 =>
          some (parts0.dropLast ++ [natToHexChars (v4 / 65536), natToHexChars (v4 % 65536)])
        | none => none
      else some parts0
  match partsOpt with
  | none => none
  | some parts =>
    if parts.length > 9 then none else
    let empties := (((parts.enum).drop 1).dropLast.filter (fun p => p.2.isEmpty)).map (fun p => p.1)
    match empties with
    | _ :: _ :: _ => none
    | [skip] =>
      let hi0 := skip
      let lo0 := parts.length - skip - 1
      let hiOpt : Option Nat :=
        if parts.head? = some ([] : List Char) then
          if hi0 - 1 = 0 then some 0 else none
        else some hi0
      let loOpt : Option Nat :=
        if parts.getLast? = some ([] : List Char) then
          if lo0 - 1 = 0 then some 0 else none
        else some lo0
      match hiOpt, loOpt with
      | some hi, some lo =>
        if hi + lo ≥ 8 then none else
        let skipped := 8 - (hi + lo)
        match (parts.take hi).mapM parseHextet,
              (parts.drop (parts.length - lo)).mapM parseHextet with
        | some hs, some ls =>
          let v := hs.foldl (fun a h => a * 65536 + h) 0
          some (ls.foldl (fun a h => a * 65536 + h) (v * 65536 ^ skipped))
        | _, _ => none
      | _, _ => none
    | [] =>
      if parts.length ≠ 8 then none
      else if parts.head? = some ([] : List Char) then none
      else if parts.getLast? = some ([] : List Char) then none
      else
        match parts.mapM parseHextet with
        | some hs => some (hs.foldl (fun a h => a * 65536 + h) 0)
        | none => none

/-- The values an `ipaddress` parse can produce: a bare v4/v6 address or a
v4/v6 network (network address plus prefix length). -/
inductive IpValue where
  | v4 (ip : Nat)
  | v6 (ip : Nat)
  | v4net (network_address : Nat) (prefixlen : Nat)
  | v6net (network_address : Nat) (prefixlen : Nat)
deriving Repr, DecidableEq

/-- `ipaddress.ip_address`: try IPv4 then IPv6. -/
def ip_address (s : List Char) : Option IpValue :=
  match parseIPv4 s with
  | some v => some (.v4 v)
  | none => (parseIPv6 s).map .v6

/-- `_prefix_from_ip_string` for IPv4: a dotted netmask (leading ones) or
hostmask (trailing ones) converted to a prefix length. -/
def maskFromIpV4 (m : Nat) : Option Nat :=
  match (List.range 33).findSome? (fun p => if m = 2 ^ 32 - 2 ^ (32 - p) then some p else none) with
  | some p => some p
  | none => (List.range 33).findSome? (fun p => if m = 2 ^ (32 - p) - 1 then some p else none)

/-- IPv4 `_make_netmask` on a string argument: a decimal prefix length
`≤ 32`, else a dotted netmask/hostmask. -/
def makeNetmaskV4 (s : List Char) : Option Nat :=
  if !s.isEmpty && s.all isDecDigit then
    if decVal s ≤ 32 then some (decVal s) else none
  else (parseIPv4 s).bind maskFromIpV4

/-- IPv6 `_make_netmask` on a string argument: decimal prefix length only. -/
def makeNetmaskV6 (s : List Char) : Option Nat :=
  if !s.isEmpty && s.all isDecDigit && decVal s ≤ 128 then some (decVal s) else none

/-- `IPv4Network(s)` with the default `strict=True` host-bits check. -/
def IPv4Network_from_string (s : List Char) : Option IpValue :=
  match splitOnChar '/' s with
  | [a] => (parseIPv4 a).map (fun ip => .v4net ip 32)
  | [a, p] => do
    let ip ← parseIPv4 a
    let pl ← makeNetmaskV4 p
    if ip % 2 ^ (32 - pl) = 0 then some (.v4net ip pl) else none
  | _ => none

/-- `IPv6Network(s)` with the default `strict=True` host-bits check. -/
def IPv6Network_from_string (s : List Char) : Option IpValue :=
  match splitOnChar '/' s with
  | [a] => (parseIPv6 a).map (fun ip => .v6net ip 128)
  | [a, p] => do
    let ip ← parseIPv6 a
    let pl ← makeNetmaskV6 p
    if ip % 2 ^ (128 - pl) = 0 then some (.v6net ip pl) else none
  | _ => none

/-- `ipaddress.ip_network`: try IPv4 then IPv6. -/
def ip_network (s : List Char) : Option IpValue :=
  match IPv4Network_from_string s with
  | some v => some v
  | none => IPv6Network_from_string s

/-! ### Error taxonomy

Python exception kinds the source raises or propagates: `TypeError` for a
non-text hostname, `ValueError` for an empty hostname list, `IDNAError`
from the `idna` library (kept distinct, as in the spec's taxonomy),
plus the attribute/extension lookup failures of the object model. -/

inductive Err where
  | typeError (msg : String)
  | valueError (msg : String)
  | idnaError (msg : String)
  | attributeError
  | extensionNotFound
deriving Repr, DecidableEq

instance {ε α : Type} [DecidableEq ε] [DecidableEq α] : DecidableEq (Except ε α) := fun x y =>
  match x, y with
  | .ok a, .ok b =>
    if h : a = b then .isTrue (h ▸ rfl) else .isFalse (fun hc => h (Except.ok.inj hc))
  | .error a, .error b =>
    if h : a = b then .isTrue (h ▸ rfl) else .isFalse (fun hc => h (Except.error.inj hc))
  | .ok _, .error _ => .isFalse (fun hc => Except.noConfusion hc)
  | .error _, .ok _ => .isFalse (fun hc => Except.noConfusion hc)

/-! ### Model of the Python `idna` library (external collaborator)

`idna.encode(hostname, uts46=True)` is modelled on the fragment the source
exercises: UTS-46 remapping covers ASCII case folding, the fullwidth forms
of the ASCII letters and digits, and the Unicode dot variants (the rest of
the mapping table is not reproduced); the IDNA2008 codepoint classes are
modelled as: lower-case ASCII letters, digits and hyphen are PVALID, other
ASCII is DISALLOWED, and non-ASCII codepoints are treated as PVALID.  The
Punycode encoder is the full RFC 3492 algorithm. -/

def toLowerAscii (c : Char) : Char :=
  if 'A' ≤ c && c ≤ 'Z' then Char.ofNat (c.toNat + 32) else c

/-- One character of the UTS-46 mapping table, restricted to the entries
relevant here: ASCII capitals fold to lower case; the ideographic full
stop U+3002, fullwidth full stop U+FF0E and halfwidth ideographic full
stop U+FF61 map to `'.'`; the fullwidth digits U+FF10-U+FF19 map to the
ASCII digits; the fullwidth letters U+FF21-U+FF3A and U+FF41-U+FF5A map
to the lower-case ASCII letters.  Other code points are left unchanged. -/
def uts46MapChar (c : Char) : Char :=
  if c.toNat = 12290 ∨ c.toNat = 65294 ∨ c.toNat = 65377 then '.'
  else if 65296 ≤ c.toNat ∧ c.toNat ≤ 65305 then Char.ofNat (c.toNat - 65296 + 48)
  else if 65313 ≤ c.toNat ∧ c.toNat ≤ 65338 then Char.ofNat (c.toNat - 65313 + 97)
  else if 65345 ≤ c.toNat ∧ c.toNat ≤ 65370 then Char.ofNat (c.toNat - 65345 + 97)
  else toLowerAscii c

/-- Model of `idna.uts46_remap`: the character mapping above applied
pointwise (a partial table; see `uts46MapChar`). -/
def uts46_remap (s : List Char) : List Char := s.map uts46MapChar

/-- Partial model of the IDNA2008 codepoint classes used by
`idna.check_label` (see the section comment above). -/
def pvalid (c : Char) : Bool :=
  ('a' ≤ c && c ≤ 'z') || isDecDigit c || c = '-' || !(c.toNat < 128)

/-- `idna.check_hyphen_ok`: no `--` in positions 3-4, no leading or
trailing hyphen. -/
def check_hyphen_ok (l : List Char) : Bool :=
  !((l.drop 2).take 2 = ['-', '-'] : Bool) &&
  !(l.head? = some '-' : Bool) && !(l.getLast? = some '-' : Bool)

/-- `idna.check_label` (NFC/bidi/combiner checks of the real library are
not modelled; the codepoint classes are the partial model above). -/
def check_label (l : List Char) : Except Err Unit :=
  if l.isEmpty then .error (.idnaError "Empty Label")
  else if !check_hyphen_ok l then .error (.idnaError "Label has disallowed hyphens")
  else if !(l.all pvalid) then .error (.idnaError "Codepoint not allowed")
  else .ok ()

/-! RFC 3492 Punycode encoder (base 36, tmin 1, tmax 26, skew 38,
damp 700, initial bias 72, initial n 128). -/

def punycodeDigit (d : Nat) : Char :=
  if d < 26 then Char.ofNat ('a'.toNat + d) else Char.ofNat ('0'.toNat + d - 26)

def adaptLoop : Nat → Nat → Nat → Nat
  | 0, k, d => k + 36 * d / (d + 38)
  | fuel + 1, k, d => if d > 455 then adaptLoop fuel (k + 36) (d / 35) else k + 36 * d / (d + 38)

/-- RFC 3492 bias adaptation. -/
def adaptBias (delta numpoints : Nat) (first : Bool) : Nat :=
  let d1 := if first then delta / 700 else delta / 2
  adaptLoop 64 0 (d1 + d1 / numpoints)

/-- RFC 3492 variable-length integer: emit digits for `q` starting at
digit position `k` with the current `bias`. -/
def punyEncodeInt : Nat → Nat → Nat → Nat → List Char
  | 0, q, _, _ => [punycodeDigit (q % 36)]
  | fuel + 1, q, k, bias =>
    let t := max 1 (min 26 (k - bias))
    if q < t then [punycodeDigit q]
    else punycodeDigit (t + (q - t) % (36 - t)) :: punyEncodeInt fuel ((q - t) / (36 - t)) (k + 36) bias

/-- Smallest code point of `cps` that is `≥ n`. -/
def punyMinAbove (cps : List Nat) (n : Nat) : Nat :=
  (cps.filter (fun c => c ≥ n)).foldl min (2 ^ 32)

/-- One pass over the code points for the current value `n`: count the
smaller ones into `delta` and emit a variable-length integer at each
occurrence of `n`.  Returns the emitted digits and the updated
`(delta, bias, h)`. -/
def punyScan : List Nat → Nat → Nat → Nat → Nat → Nat → List Char × Nat × Nat × Nat
  | [], _, delta, bias, h, _ => ([], delta, bias, h)
  | c :: rest, n, delta, bias, h, b =>
    if c < n then punyScan rest n (delta + 1) bias h b
    else if c = n then
      let digits := punyEncodeInt 64 delta 36 bias
      let bias1 := adaptBias delta (h + 1) (h = b)
      let r := punyScan rest n 0 bias1 (h + 1) b
      (digits ++ r.1, r.2)
    else punyScan rest n delta bias h b

/-- Outer loop of the Punycode encoder: advance `n` to the next unencoded
code point until all `cps.length` code points are handled. -/
def punyOuter : Nat → List Nat → Nat → Nat → Nat → Nat → Nat → List Char
  | 0, _, _, _, _, _, _ => []
  | fuel + 1, cps, b, h, n, delta, bias =>
    if h ≥ cps.length then []
    else
      let m := punyMinAbove cps n
      let delta1 := delta + (m - n) * (h + 1)
      let r := punyScan cps m delta1 bias h b
      r.1 ++ punyOuter fuel cps b r.2.2.2 (m + 1) (r.2.1 + 1) r.2.2.1

/-- RFC 3492 Punycode encoding of a label (without the `xn--` marker). -/
def punycode (l : List Char) : List Char :=
  let cps := l.map Char.toNat
  let basic := l.filter (fun c => c.toNat < 128)
  let b := basic.length
  basic ++ (if b > 0 then ['-'] else []) ++ punyOuter (cps.length + 1) cps b b 128 0 72

def allAscii (l : List Char) : Bool := l.all (fun c => c.toNat < 128)

def isXnPuny (c : Char) : Bool := ('a' ≤ c && c ≤ 'z') || isDecDigit c || c = '-'

/-- Model of `idna.ulabel`'s validation of an ASCII label: for labels
starting with the ACE marker `xn--` the real library Punycode-decodes the
rest and validates the decoded label; modelled here as: the rest is
nonempty and consists of ASCII letters, digits and hyphens.  Other ASCII
labels go through `check_label`. -/
def ulabel_check (l : List Char) : Except Err Unit :=
  let lb := l.map toLowerAscii
  match lb with
  | 'x' :: 'n' :: '-' :: '-' :: rest =>
    if rest.isEmpty then .error (.idnaError "Malformed A-label")
    else if rest.all isXnPuny then .ok ()
    else .error (.idnaError "Malformed A-label")
  | _ => check_label lb

/-- `idna.alabel`: an ASCII label is validated and returned unchanged; a
non-ASCII label is validated and Punycode-encoded behind `xn--`.  Labels
longer than 63 octets are rejected. -/
def alabel (label : List Char) : Except Err (List Char) :=
  if allAscii label then do
    ulabel_check label
    if label.length > 63 then .error (.idnaError "Label too long") else .ok label
  else
    if label.isEmpty then .error (.idnaError "No Input")
    else do
      check_label label
      let a := ['x', 'n', '-', '-'] ++ punycode label
      if a.length > 63 then .error (.idnaError "Label too long") else .ok a

/-- Python `'.'.join(...)` on code-point lists. -/
def joinWith (sep : Char) : List (List Char) → List Char
  | [] => []
  | [p] => p
  | p :: q :: rest => p ++ sep :: joinWith sep (q :: rest)

/-- Model of `idna.encode(s, uts46=True)`: UTS-46 remap, split into
labels on `.` (with `uts46=True` the remap has already turned the Unicode
dot variants into `.`, so the real library's dot-variant splitting
coincides with this), keep a trailing dot, encode each label with
`alabel`, and re-join. -/
def idna_encode (s : List Char) : Except Err (List Char) :=
  let s1 := uts46_remap s
  let labels0 := splitOnChar '.' s1
  if labels0.isEmpty || labels0 = [[]] then .error (.idnaError "Empty domain")
  else
    let td : Bool := labels0.getLast? = some ([] : List Char)
    let labels := if td then labels0.dropLast else labels0
    match labels.mapM alabel with
    | .error e => .error e
    | .ok results =>
      if results.any List.isEmpty then .error (.idnaError "Empty label")
      else
        let r := joinWith '.' results ++ (if td then ['.'] else [])
        if r.length > (if td then 254 else 253) then .error (.idnaError "Domain too long")
        else .ok r

/-! ### The hostname classifier `_hostname_to_x509` -/

/-- `x509.GeneralName` values the source constructs: `x509.IPAddress`
(wrapping an address or a network object) and `x509.DNSName`. -/
inductive GeneralName where
  | ipAddress (value : IpValue)
  | dnsName (value : String)
deriving Repr, DecidableEq

/-- A Python value passed as a hostname: either text or some non-text
object (whose further identity is irrelevant to the source). -/
inductive PyVal where
  | pyStr (s : String)
  | nonText
deriving Repr, DecidableEq

/-- `_hostname_to_x509` from the source: reject non-text, try
`ipaddress.ip_address` then `ipaddress.ip_network` (returning an
`x509.IPAddress` wrapper in both cases), else IDNA-encode as a DNS name,
stripping and re-prepending a leading `*.` wildcard. -/
def _hostname_to_x509 (hostname : PyVal) : Except Err GeneralName :=
  match hostname with
  | .nonText => .error (.typeError "hostnames must be text (unicode on py2, str on py3)")
  | .pyStr hs =>
    let cs := hs.data
    match ip_address cs with
    | some ip => .ok (.ipAddress ip)
    | none =>
      match ip_network cs with
      | some net => .ok (.ipAddress net)
      | none =>
        if cs.take 2 = ['*', '.'] then
          match idna_encode (cs.drop 2) with
          | .error e => .error e
          | .ok a => .ok (.dnsName (String.mk ('*' :: '.' :: a)))
        else
          match idna_encode cs with
          | .error e => .error e
          | .ok a => .ok (.dnsName (String.mk a))

/-! ### x509 certificate model

The fields and extensions of `cryptography.x509` certificates that the
source constructs, with `CertificateBuilder` as a record that is extended
by `add_extension` and frozen by `sign`. -/

structure Name where
  organization_name : String
  organizational_unit_name : String
deriving Repr, DecidableEq

/-- Modelled from the spec: the version string imported from
`trustme._version`, which is not among the sources; it is a fixed
constant per release. -/
def __version__ : String := "UNKNOWN"

/-- `_name(name)` from the source. -/
def _name (name : String) : Name :=
  { organization_name := "trustme v" ++ __version__,
    organizational_unit_name := name }

def _KEY_SIZE : Nat := 1024

/-- An RSA private key as produced by `rsa.generate_private_key`;
modelled as an opaque fresh token drawn from the entropy stream. -/
structure PrivateKey where
  seed : Nat
deriving Repr, DecidableEq

structure PublicKey where
  seed : Nat
deriving Repr, DecidableEq

def PrivateKey.public_key (k : PrivateKey) : PublicKey := ⟨k.seed⟩

/-- `rsa.generate_private_key(public_exponent=65537, key_size=.., ..)`:
key generation consumes one entropy token. -/
def generate_private_key (key_size : Nat) (g : Nat) : PrivateKey × Nat :=
  let _ := key_size
  (⟨g⟩, g + 1)

/-- `random_text()`: `urlsafe_b64encode(os.urandom(12))`, an injective
rendering of the next entropy token. -/
def random_text (g : Nat) : String × Nat := (Nat.repr g, g + 1)

/-- `x509.random_serial_number()`: the next entropy token. -/
def random_serial_number (g : Nat) : Nat × Nat := (g, g + 1)

/-- The x509 extension values the source adds.  A subject-key-identifier
digest is an injective function of the public key, so it is modelled by
the public key itself; `AuthorityKeyIdentifier.from_issuer_subject_key_identifier`
copies the issuer's digest. -/
inductive ExtensionValue where
  | subjectKeyIdentifier (digest : PublicKey)
  | basicConstraints (ca : Bool) (path_length : Option Nat)
  | authorityKeyIdentifier (key_identifier : PublicKey)
  | subjectAlternativeName (general_names : List GeneralName)
deriving Repr, DecidableEq

structure Extension where
  value : ExtensionValue
  critical : Bool
deriving Repr, DecidableEq

inductive HashAlgorithm where
  | sha256
deriving Repr, DecidableEq

structure Certificate where
  subject : Name
  issuer : Name
  public_key : PublicKey
  not_valid_before : Nat × Nat × Nat
  not_valid_after : Nat × Nat × Nat
  serial_number : Nat
  extensions : List Extension
  signature_key : PrivateKey
  signature_algorithm : HashAlgorithm
deriving Repr, DecidableEq

structure CertificateBuilder where
  subject_name : Name
  issuer_name : Name
  public_key : PublicKey
  not_valid_before : Nat × Nat × Nat
  not_valid_after : Nat × Nat × Nat
  serial_number : Nat
  extensions : List Extension
deriving Repr, DecidableEq

def CertificateBuilder.add_extension (b : CertificateBuilder) (v : ExtensionValue)
    (critical : Bool) : CertificateBuilder :=
  { b with extensions := b.extensions ++ [⟨v, critical⟩] }

def CertificateBuilder.sign (b : CertificateBuilder) (private_key : PrivateKey)
    (algorithm : HashAlgorithm) : Certificate :=
  { subject := b.subject_name, issuer := b.issuer_name, public_key := b.public_key,
    not_valid_before := b.not_valid_before, not_valid_after := b.not_valid_after,
    serial_number := b.serial_number, extensions := b.extensions,
    signature_key := private_key, signature_algorithm := algorithm }

/-- `_cert_builder_common(subject, issuer, public_key)` from the source:
fixed validity window 2000-01-01 .. 3000-01-01, a random serial number
(one entropy token) and a non-critical subject-key-identifier extension
derived from the certificate's own public key. -/
def _cert_builder_common (subject issuer : Name) (public_key : PublicKey) (g : Nat) :
    CertificateBuilder × Nat :=
  let (serial, g1) := random_serial_number g
  ({ subject_name := subject, issuer_name := issuer, public_key := public_key,
     not_valid_before := (2000, 1, 1), not_valid_after := (3000, 1, 1),
     serial_number := serial,
     extensions := [⟨.subjectKeyIdentifier public_key, false⟩] }, g1)

/-- `extensions.get_extension_for_class(x509.SubjectKeyIdentifier)`:
first subject-key-identifier extension, else `ExtensionNotFound`. -/
def get_extension_for_class_SKI (exts : List Extension) : Option PublicKey :=
  exts.findSome? (fun e =>
    match e.value with
    | .subjectKeyIdentifier d => some d
    | _ => none)

/-! ### PEM blobs, `Blob` and `LeafCert`

PEM serialization (done by the `cryptography` library) is modelled as an
injective tagging: one opaque token per encoded object, so that byte
concatenation becomes list concatenation. -/

inductive PemToken where
  | certTok (c : Certificate)
  | keyTok (k : PrivateKey)
deriving Repr, DecidableEq

abbrev Bytes := List PemToken

/-- `certificate.public_bytes(Encoding.PEM)`. -/
def Certificate.public_bytes_pem (c : Certificate) : Bytes := [.certTok c]

/-- `key.private_bytes(Encoding.PEM, TraditionalOpenSSL, NoEncryption())`. -/
def PrivateKey.private_bytes_pem (k : PrivateKey) : Bytes := [.keyTok k]

/-- The `Blob` wrapper class from the source. -/
structure Blob where
  data : Bytes
deriving Repr, DecidableEq

/-- `Blob.bytes()`. -/
def Blob.bytes (b : Blob) : Bytes := b.data

structure LeafCert where
  private_key_pem : Blob
  cert_chain_pems : List Blob
  private_key_and_cert_chain_pem : Blob
deriving Repr, DecidableEq

/-- `LeafCert.__init__(self, private_key_pem, server_cert_pem, chain_to_ca)`
from the source. -/
def LeafCert.init (private_key_pem server_cert_pem : Bytes) (chain_to_ca : List Bytes) :
    LeafCert :=
  { private_key_pem := ⟨private_key_pem⟩,
    cert_chain_pems := ([server_cert_pem] ++ chain_to_ca).map Blob.mk,
    private_key_and_cert_chain_pem := ⟨private_key_pem ++ server_cert_pem ++ chain_to_ca.flatten⟩ }

/-! ### The `CA` object model

Python `CA` instances form a mutable object graph: each instance holds a
reference to its parent.  The graph is embedded as an explicit heap (a
list of allocated `CA` objects addressed by index) together with the
process-wide entropy counter. -/

/-- The attributes a `CA` instance holds after `__init__`. -/
structure CAObj where
  parent_cert : Option Nat
  private_key : PrivateKey
  certificate : Certificate
  cert_pem : Blob
deriving Repr, DecidableEq

/-- The Python object store for `CA` instances plus the entropy counter. -/
structure Heap where
  cas : List CAObj
  gen : Nat
deriving Repr, DecidableEq

/-- `CA.__init__(self, parent_cert=None)` from the source: generate a
fresh key, pick the signing key (own key, or the parent's when a parent
is given), build a certificate with `subject = issuer = name` and
`public_key = sign_key.public_key()`, add `BasicConstraints(ca=True,
path_length=9)` (critical) and sign with `sign_key` using SHA-256.  The
new object is allocated at the end of the heap and its reference is
returned. -/
def CA.init (parent_cert : Option Nat) (h : Heap) : Except Err Nat × Heap :=
  let (private_key, g1) := generate_private_key _KEY_SIZE h.gen
  let signKeyRes : Except Err PrivateKey :=
    match parent_cert with
    | none => .ok private_key
    | some pid =>
      match h.cas[pid]? with
      | some pobj => .ok pobj.private_key
      | none => .error .attributeError
  match signKeyRes with
  | .error e => (.error e, { h with gen := g1 })
  | .ok sign_key =>
    let (suffix, g2) := random_text g1
    let name := _name ("Testing CA #" ++ suffix)
    let (builder0, g3) := _cert_builder_common name name sign_key.public_key g2
    let builder1 := builder0.add_extension (.basicConstraints true (some 9)) true
    let certificate := builder1.sign sign_key .sha256
    let obj : CAObj :=
      { parent_cert := parent_cert, private_key := private_key,
        certificate := certificate, cert_pem := ⟨certificate.public_bytes_pem⟩ }
    (.ok h.cas.length, { cas := h.cas ++ [obj], gen := g3 })

/-- `CA.create_child_ca(self)`: `CA(parent_cert=self)`. -/
def create_child_ca (selfId : Nat) (h : Heap) : Except Err Nat × Heap :=
  CA.init (some selfId) h

/-- The `while ca.parent_cert is not None` loop of `issue_server_cert`,
collecting each visited CA's own certificate PEM.  The loop is given
`i + 1` steps of fuel: in every heap the API constructs a parent
reference precedes its child, so the walk visits strictly decreasing
indices and the fuel is never exhausted. -/
def chain_to_ca_walk : Nat → Heap → Nat → List Bytes
  | 0, _, _ => []
  | fuel + 1, h, i =>
    match h.cas[i]? with
    | none => []
    | some ca =>
      match ca.parent_cert with
      | none => []
      | some p => ca.certificate.public_bytes_pem :: chain_to_ca_walk fuel h p

/-- `CA.issue_server_cert(self, *hostnames)` from the source: reject an
empty hostname list, generate a fresh leaf key, read this CA's
subject-key-identifier extension, build the leaf certificate (fresh
subject name, issuer = this CA's certificate subject, the leaf's public
key, non-CA basic constraints, authority-key-identifier copied from the
issuer's SKI, the classified SAN entries), sign with this CA's private
key, walk the ancestor chain and bundle everything into a `LeafCert`. -/
def issue_server_cert (selfId : Nat) (hostnames : List PyVal) (h : Heap) :
    Except Err LeafCert × Heap :=
  match h.cas[selfId]? with
  | none => (.error .attributeError, h)
  | some self =>
    if hostnames.isEmpty then (.error (.valueError "Must specify at least one hostname"), h)
    else
      let (key, g1) := generate_private_key _KEY_SIZE h.gen
      match get_extension_for_class_SKI self.certificate.extensions with
      | none => (.error .extensionNotFound, { h with gen := g1 })
      | some ski =>
        let (suffix, g2) := random_text g1
        let (builder0, g3) := _cert_builder_common
          (_name ("Testing server cert #" ++ suffix)) self.certificate.subject
          key.public_key g2
        match hostnames.mapM _hostname_to_x509 with
        | .error e => (.error e, { h with gen := g3 })
        | .ok san =>
          let cert :=
            (((builder0.add_extension (.basicConstraints false none) true).add_extension
                (.authorityKeyIdentifier ski) false).add_extension
                (.subjectAlternativeName san) true).sign self.private_key .sha256
          let chain_to_ca := chain_to_ca_walk (selfId + 1) h selfId
          (.ok (LeafCert.init key.private_bytes_pem cert.public_bytes_pem chain_to_ca),
           { h with gen := g3 })

/-- The issuing operations a test author can perform on existing CAs. -/
inductive CAOp where
  | createChild (selfId : Nat)
  | issueCert (selfId : Nat) (hostnames : List PyVal)
deriving Repr, DecidableEq

def runOp (op : CAOp) (h : Heap) : Heap :=
  match op with
  | .createChild i => (create_child_ca i h).2
  | .issueCert i hs => (issue_server_cert i hs h).2

def runOps (ops : List CAOp) (h : Heap) : Heap := ops.foldl (fun h op => runOp op h) h

/-- `CA()` followed by `create_child_ca()` applied `n` times: the heap
and the reference to the deepest CA. -/
def buildNested : Nat → Heap → Except Err Nat × Heap
  | 0, h => CA.init none h
  | n + 1, h =>
    match buildNested n h with
    | (.ok i, h1) => create_child_ca i h1
    | r => r

/-! ### Shared auxiliary definitions for the theorems -/

/-- First subject-alternative-name extension of a certificate, with its
criticality. -/
def get_extension_for_class_SAN (exts : List Extension) :
    Option (List GeneralName × Bool) :=
  exts.findSome? (fun e =>
    match e.value with
    | .subjectAlternativeName gs => some (gs, e.critical)
    | _ => none)

/-- A one-CA heap: `ca = trustme.CA()` run in a fresh process. -/
def demoHeap : Heap := (CA.init none ⟨[], 0⟩).2

/-- The root CA object allocated by `demoHeap`. -/
def demoRoot : CAObj := demoHeap.cas.getLast (by decide)

theorem except_bind_ok {α β : Type} (x : α) (g : α → Except Err β) :
    (Except.ok x >>= g) = g x := rfl

theorem except_bind_error {α β : Type} (e : Err) (g : α → Except Err β) :
    ((Except.error e : Except Err α) >>= g) = .error e := rfl

theorem except_pure_eq {α : Type} (x : α) : (pure x : Except Err α) = .ok x := rfl

theorem mapM_ok_length {α β : Type} (f : α → Except Err β) :
    ∀ (l : List α) (r : List β), l.mapM f = .ok r → r.length = l.length := by
  intro l
  induction l with
  | nil =>
    intro r hr
    rw [List.mapM_nil, except_pure_eq] at hr
    cases hr
    rfl
  | cons a as ih =>
    intro r hr
    rw [List.mapM_cons] at hr
    cases hfa : f a with
    | error e => rw [hfa, except_bind_error] at hr; cases hr
    | ok b =>
      rw [hfa, except_bind_ok] at hr
      cases hrest : as.mapM f with
      | error e => rw [hrest, except_bind_error] at hr; cases hr
      | ok bs =>
        rw [hrest, except_bind_ok, except_pure_eq] at hr
        cases hr
        simp [ih bs hrest]

theorem mapM_error_mem {α β : Type} (f : α → Except Err β) :
    ∀ (l : List α) (e : Err), l.mapM f = .error e → ∃ a ∈ l, f a = .error e := by
  intro l
  induction l with
  | nil =>
    intro e he
    rw [List.mapM_nil, except_pure_eq] at he
    cases he
  | cons a as ih =>
    intro e he
    rw [List.mapM_cons] at he
    cases hfa : f a with
    | error e2 =>
      rw [hfa, except_bind_error] at he
      cases he
      exact ⟨a, List.mem_cons_self a as, hfa⟩
    | ok b =>
      rw [hfa, except_bind_ok] at he
      cases hrest : as.mapM f with
      | error e2 =>
        rw [hrest, except_bind_error] at he
        cases he
        obtain ⟨x, hx, hfx⟩ := ih e hrest
        exact ⟨x, List.mem_cons_of_mem a hx, hfx⟩
      | ok bs => rw [hrest, except_bind_ok, except_pure_eq] at he; cases he

/-! Error-shape lemmas: every failure produced inside the `idna` model is
an `IDNAError`, so the classifier can only fail with a `TypeError` (for
non-text input) or an `IDNAError`. -/

theorem check_label_error (l : List Char) (e : Err) :
    check_label l = .error e → ∃ m, e = .idnaError m := by
  intro h
  unfold check_label at h
  split at h
  · exact ⟨_, (Except.error.inj h).symm⟩
  · split at h
    · exact ⟨_, (Except.error.inj h).symm⟩
    · split at h
      · exact ⟨_, (Except.error.inj h).symm⟩
      · cases h

theorem ulabel_check_error (l : List Char) (e : Err) :
    ulabel_check l = .error e → ∃ m, e = .idnaError m := by
  intro h
  unfold ulabel_check at h
  dsimp only at h
  split at h
  · split at h
    · exact ⟨_, (Except.error.inj h).symm⟩
    · split at h
      · cases h
      · exact ⟨_, (Except.error.inj h).symm⟩
  · exact check_label_error _ _ h

theorem alabel_error (l : List Char) (e : Err) :
    alabel l = .error e → ∃ m, e = .idnaError m := by
  intro h
  unfold alabel at h
  dsimp only at h
  split at h
  · cases hu : ulabel_check l with
    | error e2 =>
      rw [hu, except_bind_error] at h
      cases h
      exact ulabel_check_error _ _ hu
    | ok u =>
      rw [hu, except_bind_ok] at h
      split at h
      · exact ⟨_, (Except.error.inj h).symm⟩
      · cases h
  · split at h
    · exact ⟨_, (Except.error.inj h).symm⟩
    · cases hc : check_label l with
      | error e2 =>
        rw [hc, except_bind_error] at h
        cases h
        exact check_label_error _ _ hc
      | ok u =>
        rw [hc, except_bind_ok] at h
        split at h
        · exact ⟨_, (Except.error.inj h).symm⟩
        · cases h

theorem idna_encode_error (cs : List Char) (e : Err) :
    idna_encode cs = .error e → ∃ m, e = .idnaError m := by
  intro h
  unfold idna_encode at h
  dsimp only at h
  split at h
  · exact ⟨_, (Except.error.inj h).symm⟩
  · split at h
    · rename_i hm
      cases h
      obtain ⟨x, _, hx⟩ := mapM_error_mem alabel _ _ hm
      exact alabel_error _ _ hx
    · repeat' split at h
      all_goals
        first
        | exact ⟨_, (Except.error.inj h).symm⟩
        | cases h

theorem hostname_to_x509_error (v : PyVal) (e : Err) :
    _hostname_to_x509 v = .error e → (∃ m, e = .typeError m) ∨ (∃ m, e = .idnaError m) := by
  cases v with
  | nonText =>
    intro h
    exact .inl ⟨_, (Except.error.inj h).symm⟩
  | pyStr s =>
    intro h
    unfold _hostname_to_x509 at h
    dsimp only at h
    split at h
    · cases h
    · split at h
      · cases h
      · split at h
        · split at h
          · rename_i henc
            cases h
            exact .inr (idna_encode_error _ _ henc)
          · cases h
        · split at h
          · rename_i henc
            cases h
            exact .inr (idna_encode_error _ _ henc)
          · cases h

/-! Heap-shape lemmas for nested CA chains. -/

/-- After `CA()` and `n` applications of `create_child_ca`, the heap
holds `n + 1` CAs, each child's parent link points to its predecessor,
and every CA certificate carries a subject-key-identifier extension. -/
theorem buildNested_shape (n : Nat) :
    ∃ hp : Heap, buildNested n ⟨[], 0⟩ = (.ok n, hp) ∧
      hp.cas.length = n + 1 ∧
      ∀ k o, hp.cas[k]? = some o →
        (o.parent_cert = if k = 0 then none else some (k - 1)) ∧
        ∃ d, get_extension_for_class_SKI o.certificate.extensions = some d := by
  induction n with
  | zero =>
    refine ⟨(CA.init none ⟨[], 0⟩).2, by decide, by decide, ?_⟩
    intro k o hk
    match k with
    | 0 =>
      refine ⟨?_, ?_⟩
      · cases hk; decide
      · cases hk; exact ⟨⟨0⟩, by decide⟩
    | k + 1 =>
      rw [List.getElem?_eq_none
        (by rw [show (CA.init none ⟨[], 0⟩).2.cas.length = 1 from by decide]; omega)] at hk
      cases hk
  | succ n ih =>
    obtain ⟨hp, heq, hlen, hshape⟩ := ih
    have hn : n < hp.cas.length := by omega
    have hlook : hp.cas[n]? = some hp.cas[n] := List.getElem?_eq_getElem hn
    have hstep : ∃ (obj2 : CAObj) (g2 : Nat),
        buildNested (n + 1) ⟨[], 0⟩ = (.ok (n + 1), ⟨hp.cas ++ [obj2], g2⟩) ∧
        obj2.parent_cert = some n ∧
        ∃ d, get_extension_for_class_SKI obj2.certificate.extensions = some d := by
      unfold buildNested
      rw [heq]
      show ∃ obj2 g2, create_child_ca n hp = _ ∧ _
      unfold create_child_ca CA.init
      dsimp only
      rw [hlook]
      dsimp only
      rw [hlen]
      refine ⟨_, _, rfl, rfl, ?_⟩
      simp only [get_extension_for_class_SKI, _cert_builder_common,
        CertificateBuilder.add_extension, CertificateBuilder.sign, List.findSome?_cons]
      exact ⟨_, rfl⟩
    obtain ⟨obj2, g2, heq2, hpar2, hski2⟩ := hstep
    refine ⟨⟨hp.cas ++ [obj2], g2⟩, heq2, by simp [hlen], ?_⟩
    intro k o hk
    rcases Nat.lt_trichotomy k (n + 1) with hlt | heqk | hgt
    · rw [show (Heap.mk (hp.cas ++ [obj2]) g2).cas = hp.cas ++ [obj2] from rfl,
        List.getElem?_append_left (by omega : k < hp.cas.length)] at hk
      exact hshape k o hk
    · subst heqk
      rw [show (Heap.mk (hp.cas ++ [obj2]) g2).cas = hp.cas ++ [obj2] from rfl,
        List.getElem?_append_right (by omega : hp.cas.length ≤ n + 1), hlen] at hk
      simp only [Nat.sub_self, List.getElem?_cons_zero] at hk
      cases hk
      refine ⟨by simp [hpar2], hski2⟩
    · rw [show (Heap.mk (hp.cas ++ [obj2]) g2).cas = hp.cas ++ [obj2] from rfl,
        List.getElem?_eq_none (by simp [hlen]; omega)] at hk
      cases hk

/-- In a heap whose parent links point to strictly smaller indices in
predecessor-chain shape, the chain walk from index `i` collects exactly
`i` certificates. -/
theorem chain_walk_length (hp : Heap)
    (hshape : ∀ k o, hp.cas[k]? = some o →
      o.parent_cert = if k = 0 then none else some (k - 1)) :
    ∀ fuel i, i < fuel → i < hp.cas.length →
      (chain_to_ca_walk fuel hp i).length = i := by
  intro fuel
  induction fuel with
  | zero => intro i h0 _; omega
  | succ fuel ih =>
    intro i hif hilen
    have hlook : hp.cas[i]? = some hp.cas[i] := List.getElem?_eq_getElem hilen
    have hpar := (hshape i _ hlook)
    show (chain_to_ca_walk (fuel + 1) hp i).length = i
    unfold chain_to_ca_walk
    rw [hlook]
    dsimp only
    cases i with
    | zero =>
      rw [if_pos rfl] at hpar
      rw [hpar]
      rfl
    | succ j =>
      rw [if_neg (Nat.succ_ne_zero j)] at hpar
      rw [Nat.succ_sub_one] at hpar
      rw [hpar]
      simp only [List.length_cons]
      rw [ih j (by omega) (by omega)]

/-- Successful issuance, described: when the issuing CA exists, the
hostname list is non-empty, the CA certificate has an SKI extension, and
every hostname classifies, `issue_server_cert` returns a `LeafCert`
bundling some private-key PEM, the PEM of a certificate carrying the
classified SAN entries as a critical extension, and the ancestor chain
walk. -/
theorem issue_server_cert_ok_spec
    (i : Nat) (hostnames : List PyVal) (h : Heap) (obj : CAObj) (d : PublicKey)
    (entries : List GeneralName)
    (hobj : h.cas[i]? = some obj)
    (hne : hostnames.isEmpty = false)
    (hski : get_extension_for_class_SKI obj.certificate.extensions = some d)
    (hmap : hostnames.mapM _hostname_to_x509 = .ok entries) :
    ∃ (kb : Bytes) (cert : Certificate) (h2 : Heap),
      issue_server_cert i hostnames h =
        (.ok (LeafCert.init kb cert.public_bytes_pem (chain_to_ca_walk (i + 1) h i)), h2) ∧
      get_extension_for_class_SAN cert.extensions = some (entries, true) := by
  unfold issue_server_cert
  rw [hobj]
  dsimp only
  rw [hne]
  simp only [Bool.false_eq_true, if_false]
  rw [hski, hmap]
  dsimp only
  refine ⟨_, _, _, rfl, ?_⟩
  simp [get_extension_for_class_SAN, _cert_builder_common,
    CertificateBuilder.add_extension, CertificateBuilder.sign,
    List.singleton_append, List.findSome?_cons]

theorem leafCert_chain_length (kb cb : Bytes) (ch : List Bytes) :
    (LeafCert.init kb cb ch).cert_chain_pems.length = 1 + ch.length := by
  simp [LeafCert.init, Nat.add_comm]

theorem leafCert_head (kb cb : Bytes) (ch : List Bytes) :
    (LeafCert.init kb cb ch).cert_chain_pems.head? = some ⟨cb⟩ := rfl

/-! ### Character arithmetic toolkit

Conversions between `Char` order/equality and code-point arithmetic,
used by the classifier idempotence proofs. -/

theorem char_le_iff {a b : Char} : a ≤ b ↔ a.toNat ≤ b.toNat := by
  rw [Char.le_def, UInt32.le_def, BitVec.le_def]
  exact Iff.rfl

theorem char_eq_iff {a b : Char} : a = b ↔ a.toNat = b.toNat :=
  ⟨fun h => by rw [h], fun h => Char.ext (UInt32.ext h)⟩

theorem char_toNat_ofNat {n : Nat} (h : n < 55296) : (Char.ofNat n).toNat = n := by
  have hv : n.isValidChar := Or.inl h
  rw [Char.ofNat, dif_pos hv]
  rfl

theorem isDecDigit_iff_toNat {c : Char} :
    isDecDigit c = true ↔ 48 ≤ c.toNat ∧ c.toNat ≤ 57 := by
  unfold isDecDigit
  simp only [Bool.and_eq_true, decide_eq_true_eq]
  exact ⟨fun ⟨h1, h2⟩ => ⟨char_le_iff.mp h1, char_le_iff.mp h2⟩,
    fun ⟨h1, h2⟩ => ⟨char_le_iff.mpr h1, char_le_iff.mpr h2⟩⟩

theorem isXnPuny_iff_toNat {c : Char} :
    isXnPuny c = true ↔
      (97 ≤ c.toNat ∧ c.toNat ≤ 122) ∨ (48 ≤ c.toNat ∧ c.toNat ≤ 57) ∨ c.toNat = 45 := by
  unfold isXnPuny
  simp only [Bool.or_eq_true, Bool.and_eq_true, decide_eq_true_eq, isDecDigit_iff_toNat]
  constructor
  · rintro ((⟨h1, h2⟩ | h) | h)
    · exact .inl ⟨char_le_iff.mp h1, char_le_iff.mp h2⟩
    · exact .inr (.inl h)
    · exact .inr (.inr (char_eq_iff.mp h))
  · rintro (⟨h1, h2⟩ | h | h)
    · exact .inl (.inl ⟨char_le_iff.mpr h1, char_le_iff.mpr h2⟩)
    · exact .inl (.inr h)
    · exact .inr (char_eq_iff.mpr h)

theorem toLowerAscii_toNat (c : Char) :
    (toLowerAscii c).toNat = if 65 ≤ c.toNat ∧ c.toNat ≤ 90 then c.toNat + 32 else c.toNat := by
  unfold toLowerAscii
  rcases Decidable.em (65 ≤ c.toNat ∧ c.toNat ≤ 90) with h | h
  · have hb : ('A' ≤ c && c ≤ 'Z') = true := by
      rw [Bool.and_eq_true]
      exact ⟨decide_eq_true (char_le_iff.mpr h.1), decide_eq_true (char_le_iff.mpr h.2)⟩
    rw [if_pos hb, if_pos h]
    exact char_toNat_ofNat (by omega)
  · have hb : ('A' ≤ c && c ≤ 'Z') ≠ true := by
      intro hc
      rw [Bool.and_eq_true] at hc
      exact h ⟨char_le_iff.mp (of_decide_eq_true hc.1), char_le_iff.mp (of_decide_eq_true hc.2)⟩
    rw [if_neg hb, if_neg h]

/-- A character is fixed by ASCII case folding iff it is not an ASCII
capital letter. -/
theorem toLowerAscii_eq_self {c : Char} (h : ¬(65 ≤ c.toNat ∧ c.toNat ≤ 90)) :
    toLowerAscii c = c := by
  apply char_eq_iff.mpr
  rw [toLowerAscii_toNat, if_neg h]

theorem toLowerAscii_not_upper (c : Char) :
    ¬(65 ≤ (toLowerAscii c).toNat ∧ (toLowerAscii c).toNat ≤ 90) := by
  rw [toLowerAscii_toNat]
  rcases Decidable.em (65 ≤ c.toNat ∧ c.toNat ≤ 90) with h | h
  · rw [if_pos h]; omega
  · rw [if_neg h]; omega

theorem map_id_of_fixed {α : Type} {f : α → α} :
    ∀ {l : List α}, (∀ c ∈ l, f c = c) → l.map f = l
  | [], _ => rfl
  | c :: rest, h => by
    rw [List.map_cons, h c (List.mem_cons_self c rest),
      map_id_of_fixed (fun x hx => h x (List.mem_cons_of_mem c hx))]

theorem not_contains_of_forall {l : List Char} {c : Char}
    (h : ∀ x ∈ l, x ≠ c) : l.contains c = false := by
  induction l with
  | nil => rfl
  | cons a rest ih =>
    rw [List.contains_cons]
    rw [Bool.or_eq_false_iff]
    refine ⟨?_, ih (fun x hx => h x (List.mem_cons_of_mem a hx))⟩
    have hne := h a (List.mem_cons_self a rest)
    have hne2 : ¬c = a := fun hc => hne hc.symm
    simp [beq_eq_false_iff_ne, hne, hne2]

/-! ### Split/join lemmas for the label structure -/

theorem splitOnChar_ne_nil (sep : Char) (l : List Char) : splitOnChar sep l ≠ [] := by
  cases l with
  | nil => simp [splitOnChar]
  | cons c rest =>
    unfold splitOnChar
    dsimp only
    split
    · simp
    · split <;> simp

theorem joinWith_splitOnChar (sep : Char) :
    ∀ l : List Char, joinWith sep (splitOnChar sep l) = l := by
  intro l
  induction l with
  | nil => rfl
  | cons c rest ih =>
    unfold splitOnChar
    dsimp only
    rcases hr : splitOnChar sep rest with _ | ⟨h1, t1⟩
    · exact absurd hr (splitOnChar_ne_nil sep rest)
    · rw [hr] at ih
      split
      · rename_i hc
        subst hc
        show joinWith c ([] :: h1 :: t1) = c :: rest
        show [] ++ c :: joinWith c (h1 :: t1) = c :: rest
        rw [ih]
        rfl
      · dsimp only
        cases t1 with
        | nil =>
          show c :: h1 = c :: rest
          rw [← ih]
          rfl
        | cons q t2 =>
          show (c :: h1) ++ sep :: joinWith sep (q :: t2) = c :: rest
          rw [← ih]
          rfl

theorem splitOnChar_no_sep {sep : Char} :
    ∀ {l : List Char}, (∀ x ∈ l, x ≠ sep) → splitOnChar sep l = [l] := by
  intro l
  induction l with
  | nil => intro _; rfl
  | cons c rest ih =>
    intro hl
    unfold splitOnChar
    dsimp only
    rw [if_neg (hl c (List.mem_cons_self c rest))]
    rw [ih (fun x hx => hl x (List.mem_cons_of_mem c hx))]

theorem splitOnChar_append_sep {sep : Char} :
    ∀ {p : List Char} (t : List Char), (∀ x ∈ p, x ≠ sep) →
      splitOnChar sep (p ++ sep :: t) = p :: splitOnChar sep t := by
  intro p
  induction p with
  | nil =>
    intro t _
    show splitOnChar sep (sep :: t) = [] :: splitOnChar sep t
    rw [splitOnChar]
    rw [if_pos rfl]
  | cons c p2 ih =>
    intro t hp
    show splitOnChar sep (c :: (p2 ++ sep :: t)) = (c :: p2) :: splitOnChar sep t
    rw [splitOnChar]
    rw [if_neg (hp c (List.mem_cons_self c p2))]
    rw [ih t (fun x hx => hp x (List.mem_cons_of_mem c hx))]

theorem splitOnChar_append_sep_nil {sep : Char} :
    ∀ {l : List Char}, splitOnChar sep (l ++ [sep]) = splitOnChar sep l ++ [[]] := by
  intro l
  induction l with
  | nil =>
    show splitOnChar sep [sep] = [[]] ++ [[]]
    unfold splitOnChar
    dsimp only
    rw [if_pos rfl]
    rfl
  | cons c rest ih =>
    show splitOnChar sep (c :: (rest ++ [sep])) = splitOnChar sep (c :: rest) ++ [[]]
    unfold splitOnChar
    dsimp only
    rw [ih]
    rcases hsr : splitOnChar sep rest with _ | ⟨h2, t2⟩
    · exact absurd hsr (splitOnChar_ne_nil sep rest)
    · split
      · rfl
      · rfl

theorem mem_splitOnChar {sep : Char} :
    ∀ {l : List Char} {p : List Char}, p ∈ splitOnChar sep l → ∀ {c}, c ∈ p → c ∈ l := by
  intro l
  induction l with
  | nil =>
    intro p hp c hc
    simp [splitOnChar] at hp
    subst hp
    cases hc
  | cons a rest ih =>
    intro p hp c hc
    unfold splitOnChar at hp
    dsimp only at hp
    split at hp
    · rcases List.mem_cons.mp hp with hp1 | hp2
      · subst hp1; cases hc
      · exact List.mem_cons_of_mem a (ih hp2 hc)
    · rcases hr : splitOnChar sep rest with _ | ⟨h1, t1⟩
      · exact absurd hr (splitOnChar_ne_nil sep rest)
      · rw [hr] at hp
        dsimp only at hp
        rcases List.mem_cons.mp hp with hp1 | hp2
        · subst hp1
          rcases List.mem_cons.mp hc with hc1 | hc2
          · subst hc1; exact List.mem_cons_self _ _
          · exact List.mem_cons_of_mem a
              (ih (by rw [hr]; exact List.mem_cons_self _ _) hc2)
        · exact List.mem_cons_of_mem a
            (ih (by rw [hr]; exact List.mem_cons_of_mem h1 hp2) hc)

theorem mem_joinWith {sep : Char} :
    ∀ {parts : List (List Char)} {c : Char}, c ∈ joinWith sep parts →
      c = sep ∨ ∃ p ∈ parts, c ∈ p
  | [], c, hc => by cases hc
  | [p], c, hc => .inr ⟨p, List.mem_cons_self p [], hc⟩
  | p :: q :: rest, c, hc => by
    have hc2 : c ∈ p ++ sep :: joinWith sep (q :: rest) := hc
    rcases List.mem_append.mp hc2 with h1 | h2
    · exact .inr ⟨p, List.mem_cons_self _ _, h1⟩
    · rcases List.mem_cons.mp h2 with h3 | h4
      · exact .inl h3
      · rcases mem_joinWith h4 with h5 | ⟨pp, hpp, hcp⟩
        · exact .inl h5
        · exact .inr ⟨pp, List.mem_cons_of_mem p hpp, hcp⟩

theorem subset_joinWith {sep : Char} :
    ∀ {parts : List (List Char)} {p : List Char}, p ∈ parts →
      ∀ {c}, c ∈ p → c ∈ joinWith sep parts
  | [], p, hp, _, _ => nomatch hp
  | [q], p, hp, c, hc => by
    rcases List.mem_cons.mp hp with h | h
    · subst h; exact hc
    · cases h
  | q :: r :: rest, p, hp, c, hc => by
    show c ∈ q ++ sep :: joinWith sep (r :: rest)
    rcases List.mem_cons.mp hp with h | h
    · subst h; exact List.mem_append.mpr (.inl hc)
    · exact List.mem_append.mpr (.inr (List.mem_cons_of_mem sep (subset_joinWith h hc)))

theorem joinWith_ne_nil {sep : Char} :
    ∀ {parts : List (List Char)}, parts ≠ [] → (∀ p ∈ parts, p ≠ []) →
      joinWith sep parts ≠ []
  | [], h1, _ => absurd rfl h1
  | [p], _, h2 => h2 p (List.mem_cons_self p [])
  | p :: q :: rest, _, _ => by
    show p ++ sep :: joinWith sep (q :: rest) ≠ []
    simp

theorem splitOnChar_joinWith {sep : Char} :
    ∀ {parts : List (List Char)}, parts ≠ [] →
      (∀ p ∈ parts, ∀ x ∈ p, x ≠ sep) →
      splitOnChar sep (joinWith sep parts) = parts
  | [], h1, _ => absurd rfl h1
  | [p], _, h2 => by
    show splitOnChar sep p = [p]
    exact splitOnChar_no_sep (h2 p (List.mem_cons_self p []))
  | p :: q :: rest, _, h2 => by
    show splitOnChar sep (p ++ sep :: joinWith sep (q :: rest)) = p :: q :: rest
    rw [splitOnChar_append_sep _ (h2 p (List.mem_cons_self _ _))]
    rw [splitOnChar_joinWith (by simp) (fun x hx => h2 x (List.mem_cons_of_mem p hx))]

/-! ### Punycode output facts -/

theorem punycodeDigit_isXnPuny {d : Nat} (h : d < 36) : isXnPuny (punycodeDigit d) = true := by
  unfold punycodeDigit
  have ha : ('a'.toNat : Nat) = 97 := rfl
  have h0 : ('0'.toNat : Nat) = 48 := rfl
  rcases Decidable.em (d < 26) with h26 | h26
  · rw [if_pos h26]
    apply isXnPuny_iff_toNat.mpr
    rw [ha, char_toNat_ofNat (by omega)]
    left
    omega
  · rw [if_neg h26]
    apply isXnPuny_iff_toNat.mpr
    rw [h0, char_toNat_ofNat (by omega)]
    right; left
    omega

theorem punyEncodeInt_ne_nil : ∀ (fuel q k bias : Nat), punyEncodeInt fuel q k bias ≠ [] := by
  intro fuel
  cases fuel with
  | zero => intro q k bias; simp [punyEncodeInt]
  | succ f =>
    intro q k bias
    unfold punyEncodeInt
    dsimp only
    split <;> simp

theorem punyEncodeInt_chars :
    ∀ (fuel q k bias : Nat), ∀ c ∈ punyEncodeInt fuel q k bias, isXnPuny c = true := by
  intro fuel
  induction fuel with
  | zero =>
    intro q k bias c hc
    unfold punyEncodeInt at hc
    rcases List.mem_cons.mp hc with h | h
    · subst h; exact punycodeDigit_isXnPuny (Nat.mod_lt _ (by omega))
    · cases h
  | succ f ih =>
    intro q k bias c hc
    unfold punyEncodeInt at hc
    dsimp only at hc
    split at hc
    · rcases List.mem_cons.mp hc with h | h
      · subst h
        apply punycodeDigit_isXnPuny
        rename_i ht
        omega
      · cases h
    · rcases List.mem_cons.mp hc with h | h
      · subst h
        apply punycodeDigit_isXnPuny
        have h3 : (q - max 1 (min 26 (k - bias))) % (36 - max 1 (min 26 (k - bias)))
            < 36 - max 1 (min 26 (k - bias)) := Nat.mod_lt _ (by omega)
        omega
      · exact ih _ _ _ c h

theorem punyScan_chars :
    ∀ (cps : List Nat) (n delta bias h b : Nat), ∀ c ∈ (punyScan cps n delta bias h b).1,
      isXnPuny c = true := by
  intro cps
  induction cps with
  | nil => intro n delta bias h b c hc; cases hc
  | cons a rest ih =>
    intro n delta bias h b c hc
    unfold punyScan at hc
    dsimp only at hc
    split at hc
    · exact ih _ _ _ _ _ c hc
    · split at hc
      · rcases List.mem_append.mp hc with h1 | h2
        · exact punyEncodeInt_chars _ _ _ _ c h1
        · exact ih _ _ _ _ _ c h2
      · exact ih _ _ _ _ _ c hc

theorem punyOuter_chars :
    ∀ (fuel : Nat) (cps : List Nat) (b h n delta bias : Nat),
      ∀ c ∈ punyOuter fuel cps b h n delta bias, isXnPuny c = true := by
  intro fuel
  induction fuel with
  | zero => intro cps b h n delta bias c hc; cases hc
  | succ f ih =>
    intro cps b h n delta bias c hc
    unfold punyOuter at hc
    dsimp only at hc
    split at hc
    · cases hc
    · rcases List.mem_append.mp hc with h1 | h2
      · exact punyScan_chars _ _ _ _ _ _ c h1
      · exact ih _ _ _ _ _ _ c h2

theorem punycode_chars {l : List Char} (hl : ∀ c ∈ l, pvalid c = true) :
    ∀ c ∈ punycode l, isXnPuny c = true := by
  intro c hc
  unfold punycode at hc
  dsimp only at hc
  rcases List.mem_append.mp hc with h1 | h2
  · rcases List.mem_append.mp h1 with h3 | h4
    · have hmem := List.mem_filter.mp h3
      have hp := hl c hmem.1
      have hascii : decide (c.toNat < 128) = true := hmem.2
      have hpv : (isXnPuny c || !(decide (c.toNat < 128))) = true := hp
      rw [hascii] at hpv
      simpa using hpv
    · split at h4
      · rcases List.mem_cons.mp h4 with h | h
        · subst h; decide
        · cases h
      · cases h4
  · exact punyOuter_chars _ _ _ _ _ _ _ c h2

theorem foldl_min_le_init : ∀ (xs : List Nat) (init : Nat), xs.foldl min init ≤ init := by
  intro xs
  induction xs with
  | nil => intro init; exact Nat.le_refl _
  | cons x rest ih =>
    intro init
    calc (x :: rest).foldl min init = rest.foldl min (min init x) := rfl
      _ ≤ min init x := ih _
      _ ≤ init := Nat.min_le_left _ _

theorem foldl_min_mem :
    ∀ (xs : List Nat) (init : Nat), xs.foldl min init = init ∨ xs.foldl min init ∈ xs := by
  intro xs
  induction xs with
  | nil => intro init; exact .inl rfl
  | cons x rest ih =>
    intro init
    rcases ih (min init x) with h | h
    · have hm : min init x = init ∨ min init x = x := by
        rcases Nat.le_total init x with hle | hle
        · exact .inl (Nat.min_eq_left hle)
        · exact .inr (Nat.min_eq_right hle)
      rcases hm with hm | hm
      · exact .inl (by rw [show (x :: rest).foldl min init = rest.foldl min (min init x) from rfl, h, hm])
      · refine .inr (List.mem_cons.mpr (.inl ?_))
        rw [show (x :: rest).foldl min init = rest.foldl min (min init x) from rfl, h, hm]
    · exact .inr (List.mem_cons.mpr (.inr h))

theorem foldl_min_le_mem :
    ∀ (xs : List Nat) (init y : Nat), y ∈ xs → xs.foldl min init ≤ y := by
  intro xs
  induction xs with
  | nil => intro init y hy; cases hy
  | cons x rest ih =>
    intro init y hy
    rcases List.mem_cons.mp hy with h | h
    · subst h
      calc (y :: rest).foldl min init = rest.foldl min (min init y) := rfl
        _ ≤ min init y := foldl_min_le_init _ _
        _ ≤ y := Nat.min_le_right _ _
    · exact ih (min init x) y h

/-- When some code point of `cps` is at least `n`, the minimum that the
Punycode outer loop picks is itself a code point of `cps` (all code
points are below the `2 ^ 32` sentinel). -/
theorem punyMinAbove_mem {cps : List Nat} {n : Nat} (y : Nat) (hy : y ∈ cps) (hyn : n ≤ y)
    (hbound : ∀ x ∈ cps, x < 2 ^ 32) : punyMinAbove cps n ∈ cps := by
  unfold punyMinAbove
  have hyf : y ∈ cps.filter (fun c => decide (n ≤ c)) :=
    List.mem_filter.mpr ⟨hy, decide_eq_true hyn⟩
  rcases foldl_min_mem (cps.filter (fun c => decide (n ≤ c))) (2 ^ 32) with h | h
  · exfalso
    have h1 : (cps.filter (fun c => decide (n ≤ c))).foldl min (2 ^ 32) ≤ y :=
      foldl_min_le_mem _ _ y hyf
    have h2 := hbound y hy
    omega
  · exact (List.mem_filter.mp h).1

theorem punyScan_ne_nil :
    ∀ (cps : List Nat) (m delta bias h b : Nat), m ∈ cps →
      (punyScan cps m delta bias h b).1 ≠ [] := by
  intro cps
  induction cps with
  | nil => intro m delta bias h b hm; cases hm
  | cons a rest ih =>
    intro m delta bias h b hm
    unfold punyScan
    dsimp only
    split
    · rename_i ha
      apply ih
      rcases List.mem_cons.mp hm with h1 | h1
      · omega
      · exact h1
    · split
      · intro hcontra
        exact punyEncodeInt_ne_nil 64 delta 36 bias (List.append_eq_nil.mp hcontra).1
      · rename_i ha hne
        apply ih
        rcases List.mem_cons.mp hm with h1 | h1
        · exact absurd h1.symm hne
        · exact h1

theorem punycode_ne_nil {l : List Char} (hl : l ≠ []) (hna : allAscii l = false) :
    punycode l ≠ [] := by
  unfold punycode
  dsimp only
  cases hb : l.filter (fun c => decide (c.toNat < 128)) with
  | cons x xs => simp
  | nil =>
    simp only [List.length_nil, List.nil_append]
    rw [if_neg (by omega : ¬((0 : Nat) > 0)), List.nil_append]
    have hlen : 1 ≤ (l.map Char.toNat).length := by
      rw [List.length_map]
      cases l with
      | nil => exact absurd rfl hl
      | cons c rest => simp
    have hall : ∀ x ∈ l.map Char.toNat, 128 ≤ x := by
      intro x hx
      obtain ⟨c, hc, hcx⟩ := List.mem_map.mp hx
      have := List.filter_eq_nil.mp hb c hc
      subst hcx
      simpa using this
    obtain ⟨c0, hc0⟩ : ∃ c0, c0 ∈ l.map Char.toNat := by
      cases hm : l.map Char.toNat with
      | nil => rw [hm] at hlen; simp at hlen
      | cons a rest => exact ⟨a, List.mem_cons_self a rest⟩
    have hbound : ∀ x ∈ l.map Char.toNat, x < 2 ^ 32 := by
      intro x hx
      obtain ⟨c, _, hcx⟩ := List.mem_map.mp hx
      subst hcx
      exact c.val.toBitVec.isLt
    have hmem : punyMinAbove (l.map Char.toNat) 128 ∈ l.map Char.toNat :=
      punyMinAbove_mem c0 hc0 (hall c0 hc0) hbound
    unfold punyOuter
    dsimp only
    rw [if_neg (by omega : ¬(0 ≥ (l.map Char.toNat).length))]
    intro hcontra
    exact punyScan_ne_nil _ _ _ _ _ _ hmem (List.append_eq_nil.mp hcontra).1

/-! ### Success characterization of the idna model -/

theorem mapM_ok_forall2 {α β : Type} (f : α → Except Err β) :
    ∀ (l : List α) (r : List β), l.mapM f = .ok r →
      List.Forall₂ (fun a b => f a = .ok b) l r := by
  intro l
  induction l with
  | nil =>
    intro r hr
    rw [List.mapM_nil, except_pure_eq] at hr
    cases hr
    exact List.Forall₂.nil
  | cons a as ih =>
    intro r hr
    rw [List.mapM_cons] at hr
    cases hfa : f a with
    | error e => rw [hfa, except_bind_error] at hr; cases hr
    | ok b =>
      rw [hfa, except_bind_ok] at hr
      cases hrest : as.mapM f with
      | error e => rw [hrest, except_bind_error] at hr; cases hr
      | ok bs =>
        rw [hrest, except_bind_ok, except_pure_eq] at hr
        cases hr
        exact List.Forall₂.cons hfa (ih bs hrest)

theorem mapM_ok_of_forall {α : Type} (f : α → Except Err α) :
    ∀ (l : List α), (∀ x ∈ l, f x = .ok x) → l.mapM f = .ok l := by
  intro l
  induction l with
  | nil => intro _; rfl
  | cons a as ih =>
    intro h
    rw [List.mapM_cons, h a (List.mem_cons_self a as), except_bind_ok,
      ih (fun x hx => h x (List.mem_cons_of_mem a hx)), except_bind_ok, except_pure_eq]

theorem forall2_eq_of_eq {α : Type} {P : α → α → Prop} :
    ∀ {l r : List α}, List.Forall₂ P l r → (∀ a b, P a b → b = a) → r = l := by
  intro l r h hP
  induction h with
  | nil => rfl
  | cons h1 _ ih => rw [ih, hP _ _ h1]

theorem check_label_ok {l : List Char} (h : check_label l = .ok ()) :
    l ≠ [] ∧ ∀ c ∈ l, pvalid c = true := by
  unfold check_label at h
  split at h
  · cases h
  · split at h
    · cases h
    · split at h
      · cases h
      · rename_i h1 _ h3
        refine ⟨fun hc => h1 (by rw [hc]; rfl), ?_⟩
        have : l.all pvalid = true := by
          cases hall : l.all pvalid
          · rw [hall] at h3; exact absurd rfl h3
          · rfl
        exact fun c hc => List.all_eq_true.mp this c hc

theorem xnpuny_no_upper {c : Char} (h : isXnPuny c = true) : toLowerAscii c = c := by
  apply toLowerAscii_eq_self
  rcases isXnPuny_iff_toNat.mp h with h1 | h1 | h1 <;> omega

theorem xnpuny_ascii {c : Char} (h : isXnPuny c = true) : c.toNat < 128 := by
  rcases isXnPuny_iff_toNat.mp h with h1 | h1 | h1 <;> omega

theorem pvalid_ascii_xnpuny {c : Char} (hp : pvalid c = true) (ha : c.toNat < 128) :
    isXnPuny c = true := by
  have hpv : (isXnPuny c || !(decide (c.toNat < 128))) = true := hp
  rw [decide_eq_true ha] at hpv
  simpa using hpv

theorem allAscii_of_xnpuny {l : List Char} (h : ∀ c ∈ l, isXnPuny c = true) :
    allAscii l = true :=
  List.all_eq_true.mpr (fun c hc => decide_eq_true (xnpuny_ascii (h c hc)))

theorem map_toLower_fix_of_xnpuny {l : List Char} (h : ∀ c ∈ l, isXnPuny c = true) :
    l.map toLowerAscii = l :=
  map_id_of_fixed (fun c hc => xnpuny_no_upper (h c hc))

theorem ulabel_check_ok_chars {l : List Char}
    (hfix : l.map toLowerAscii = l) (hascii : allAscii l = true)
    (h : ulabel_check l = .ok ()) : l ≠ [] ∧ ∀ c ∈ l, isXnPuny c = true := by
  unfold ulabel_check at h
  dsimp only at h
  rw [hfix] at h
  split at h
  · rename_i rest
    split at h
    · cases h
    · split at h
      · rename_i hrest
        refine ⟨by simp, ?_⟩
        intro c hc
        rcases List.mem_cons.mp hc with h1 | hc2
        · subst h1; decide
        rcases List.mem_cons.mp hc2 with h1 | hc3
        · subst h1; decide
        rcases List.mem_cons.mp hc3 with h1 | hc4
        · subst h1; decide
        rcases List.mem_cons.mp hc4 with h1 | hc5
        · subst h1; decide
        · exact List.all_eq_true.mp hrest c hc5
      · cases h
  · obtain ⟨hne, hpv⟩ := check_label_ok h
    refine ⟨hne, fun c hc => pvalid_ascii_xnpuny (hpv c hc) ?_⟩
    have := List.all_eq_true.mp hascii c hc
    simpa using this

/-- Success characterization of `alabel` on a case-folded label: the
output is a nonempty label of letters/digits/hyphens of at most 63
characters, `alabel` is idempotent on it, and a digits-only output can
only be the unchanged input label. -/
theorem alabel_ok_spec {label r : List Char}
    (hfix : label.map toLowerAscii = label)
    (h : alabel label = .ok r) :
    r ≠ [] ∧ (∀ c ∈ r, isXnPuny c = true) ∧ alabel r = .ok r ∧
      ((∀ c ∈ r, isDecDigit c = true) → r = label) := by
  have horig := h
  unfold alabel at h
  split at h
  · rename_i hascii
    cases hu : ulabel_check label with
    | error e => rw [hu, except_bind_error] at h; cases h
    | ok u =>
      cases u
      rw [hu, except_bind_ok] at h
      split at h
      · cases h
      · cases h
        obtain ⟨hne, hchars⟩ := ulabel_check_ok_chars hfix hascii hu
        exact ⟨hne, hchars, horig, fun _ => rfl⟩
  · rename_i hascii
    split at h
    · cases h
    · cases hc : check_label label with
      | error e => rw [hc, except_bind_error] at h; cases h
      | ok u =>
        cases u
        rw [hc, except_bind_ok] at h
        dsimp only at h
        split at h
        · cases h
        · rename_i hlen
          cases h
          obtain ⟨hne, hpv⟩ := check_label_ok hc
          have hpuny := punycode_chars hpv
          have hA : allAscii label = false := by
            cases hA : allAscii label
            · rfl
            · exact absurd hA hascii
          have hpne : punycode label ≠ [] := punycode_ne_nil hne hA
          have hchars : ∀ c ∈ ['x', 'n', '-', '-'] ++ punycode label, isXnPuny c = true := by
            intro c hc2
            rcases List.mem_append.mp hc2 with h1 | h2
            · rcases List.mem_cons.mp h1 with h3 | h1
              · subst h3; decide
              rcases List.mem_cons.mp h1 with h3 | h1
              · subst h3; decide
              rcases List.mem_cons.mp h1 with h3 | h1
              · subst h3; decide
              rcases List.mem_cons.mp h1 with h3 | h1
              · subst h3; decide
              · cases h1
            · exact hpuny c h2
          refine ⟨by simp, hchars, ?_, ?_⟩
          · unfold alabel
            rw [allAscii_of_xnpuny hchars]
            simp only [if_true]
            have hul : ulabel_check (['x', 'n', '-', '-'] ++ punycode label) = .ok () := by
              unfold ulabel_check
              dsimp only
              rw [map_toLower_fix_of_xnpuny hchars]
              show (if (punycode label).isEmpty = true then _
                    else if (punycode label).all isXnPuny = true then Except.ok ()
                    else _) = Except.ok ()
              rw [if_neg (by rw [List.isEmpty_eq_false.mpr hpne]; exact Bool.false_ne_true)]
              rw [if_pos (List.all_eq_true.mpr hpuny)]
            rw [hul, except_bind_ok]
            rw [if_neg hlen]
          · intro hdig
            have hx : isDecDigit 'x' = true :=
              hdig 'x' (List.mem_append.mpr (.inl (List.mem_cons_self _ _)))
            cases hx

theorem splitOnChar_parts_no_sep {sep : Char} :
    ∀ {l p : List Char}, p ∈ splitOnChar sep l → ∀ x ∈ p, x ≠ sep := by
  intro l
  induction l with
  | nil =>
    intro p hp x hx
    simp [splitOnChar] at hp
    subst hp
    cases hx
  | cons a rest ih =>
    intro p hp x hx
    unfold splitOnChar at hp
    dsimp only at hp
    split at hp
    · rcases List.mem_cons.mp hp with h1 | h2
      · subst h1; cases hx
      · exact ih h2 x hx
    · rename_i hne
      rcases hr : splitOnChar sep rest with _ | ⟨h1, t1⟩
      · exact absurd hr (splitOnChar_ne_nil sep rest)
      · rw [hr] at hp
        dsimp only at hp
        rcases List.mem_cons.mp hp with h2 | h3
        · subst h2
          rcases List.mem_cons.mp hx with h4 | h5
          · subst h4; exact hne
          · exact ih (by rw [hr]; exact List.mem_cons_self _ _) x h5
        · exact ih (by rw [hr]; exact List.mem_cons_of_mem h1 h3) x hx

theorem joinWith_concat_nil {sep : Char} :
    ∀ {xs : List (List Char)}, xs ≠ [] →
      joinWith sep (xs ++ [[]]) = joinWith sep xs ++ [sep]
  | [], h => absurd rfl h
  | [p], _ => by
    show p ++ sep :: joinWith sep [[]] = p ++ [sep]
    rfl
  | p :: q :: rest, _ => by
    show p ++ sep :: joinWith sep ((q :: rest) ++ [[]])
        = (p ++ sep :: joinWith sep (q :: rest)) ++ [sep]
    rw [joinWith_concat_nil (by simp)]
    simp

theorem xnpuny_ne_dot {c : Char} (h : isXnPuny c = true) : c ≠ '.' := by
  intro hc
  subst hc
  exact absurd h (by decide)

theorem toLowerAscii_idem (c : Char) : toLowerAscii (toLowerAscii c) = toLowerAscii c :=
  toLowerAscii_eq_self (toLowerAscii_not_upper c)

/-- Below the mapped fullwidth/dot-variant blocks the UTS-46 character map
is plain ASCII case folding. -/
theorem uts46MapChar_low {c : Char} (h : c.toNat < 12290) :
    uts46MapChar c = toLowerAscii c := by
  unfold uts46MapChar
  rw [if_neg (by omega), if_neg (by omega), if_neg (by omega), if_neg (by omega)]

/-- The UTS-46 character map never produces an ASCII capital letter. -/
theorem uts46MapChar_not_upper (c : Char) :
    ¬(65 ≤ (uts46MapChar c).toNat ∧ (uts46MapChar c).toNat ≤ 90) := by
  unfold uts46MapChar
  split
  · decide
  · split
    · rename_i h1 h2
      rw [char_toNat_ofNat (by omega)]
      omega
    · split
      · rename_i h1 h2 h3
        rw [char_toNat_ofNat (by omega)]
        omega
      · split
        · rename_i h1 h2 h3 h4
          rw [char_toNat_ofNat (by omega)]
          omega
        · exact toLowerAscii_not_upper c

theorem mem_remap_fix {cs : List Char} {c : Char} (h : c ∈ uts46_remap cs) :
    toLowerAscii c = c := by
  obtain ⟨x, _, hx⟩ := List.mem_map.mp h
  rw [← hx]
  exact toLowerAscii_eq_self (uts46MapChar_not_upper x)

theorem remap_fix_of_chars {u : List Char}
    (h : ∀ c ∈ u, isXnPuny c = true ∨ c = '.') : uts46_remap u = u := by
  apply map_id_of_fixed
  intro c hc
  rcases h c hc with h1 | h1
  · rw [uts46MapChar_low (by have := xnpuny_ascii h1; omega)]
    exact xnpuny_no_upper h1
  · subst h1; decide

theorem results_facts :
    ∀ {labels results : List (List Char)},
      List.Forall₂ (fun a b => alabel a = .ok b) labels results →
      (∀ p ∈ labels, p.map toLowerAscii = p) →
      ((∀ r ∈ results, r ≠ [] ∧ (∀ c ∈ r, isXnPuny c = true) ∧ alabel r = .ok r) ∧
        ((∀ r ∈ results, ∀ c ∈ r, isDecDigit c = true) → results = labels)) := by
  intro labels results hf2
  induction hf2 with
  | nil => exact fun _ => ⟨fun r hr => absurd hr (List.not_mem_nil r), fun _ => rfl⟩
  | cons h1 htail ih =>
    rename_i a b as bs
    intro hfix
    obtain ⟨hb1, hb2, hb3, hb4⟩ := alabel_ok_spec (hfix a (List.mem_cons_self _ _)) h1
    obtain ⟨ihA, ihB⟩ := ih (fun p hp => hfix p (List.mem_cons_of_mem _ hp))
    refine ⟨?_, ?_⟩
    · intro r hr
      rcases List.mem_cons.mp hr with h2 | h2
      · subst h2; exact ⟨hb1, hb2, hb3⟩
      · exact ihA r h2
    · intro hdig
      have hba := hb4 (fun c hc => hdig b (List.mem_cons_self _ _) c hc)
      rw [ihB (fun r hr c hc => hdig r (List.mem_cons_of_mem _ hr) c hc), hba]

/-! ### Claims -/

/-- C1: the claim states that every CA certificate embeds the public key
of the CA's own fresh key pair.  The code disagrees: `CA.__init__` passes
`sign_key.public_key()` to the builder, and for a child CA `sign_key` is
the parent's private key.  Concretely, after `root = CA();
child = root.create_child_ca()` (heap `buildNested 1`), the child's
certificate carries the root's public key `⟨0⟩`, not the child's own
public key `⟨3⟩`. -/
theorem C1_child_ca_certificate_embeds_parents_public_key :
    (buildNested 1 ⟨[], 0⟩).1 = .ok 1 ∧
    ((buildNested 1 ⟨[], 0⟩).2.cas.map fun o => o.certificate.public_key) = [⟨0⟩, ⟨0⟩] ∧
    ((buildNested 1 ⟨[], 0⟩).2.cas.map fun o => o.private_key.public_key) = [⟨0⟩, ⟨3⟩] := by
  decide

/-- C2: the claim states that a child CA's certificate issuer name is the
parent's subject name.  The code disagrees: `CA.__init__` builds every CA
certificate with `subject = issuer = name` where `name` is the CA's own
fresh random name.  Concretely, in the two-CA heap of `buildNested 1`,
the child certificate's issuer equals its own subject and differs from
the root certificate's subject. -/
theorem C2_child_ca_certificate_issuer_is_its_own_name :
    (buildNested 1 ⟨[], 0⟩).1 = .ok 1 ∧
    ((buildNested 1 ⟨[], 0⟩).2.cas[1]?.map fun o => o.certificate.issuer)
      = ((buildNested 1 ⟨[], 0⟩).2.cas[1]?.map fun o => o.certificate.subject) ∧
    ((buildNested 1 ⟨[], 0⟩).2.cas[1]?.map fun o => o.certificate.issuer)
      ≠ ((buildNested 1 ⟨[], 0⟩).2.cas[0]?.map fun o => o.certificate.subject) := by
  decide

/-- C3 counterexample: for N = 1 (`create_child_ca` applied once, then
`issue_server_cert` on the child) the claim predicts N - 1 = 0
ancestor-chain entries, i.e. `cert_chain_pems` of length 1; the code
produces one chain entry (the child CA's own certificate), i.e.
`cert_chain_pems` of length 2. -/
theorem C3_counterexample_depth_one_chain_has_one_entry :
    ((issue_server_cert 1 [.pyStr "example.com"] (buildNested 1 ⟨[], 0⟩).2).1.map
        fun leaf => leaf.cert_chain_pems.length) = .ok 2 ∧
    ((issue_server_cert 1 [.pyStr "example.com"] (buildNested 1 ⟨[], 0⟩).2).1.map
        fun leaf => leaf.cert_chain_pems.length) ≠ .ok 1 := by
  decide

/-- C5: classification tries `ipaddress.ip_address` before
`ipaddress.ip_network`, so any string that parses as a bare IP address is
returned as that address — network parsing is never consulted; bare
`"127.0.0.1"` and `"::1"` classify as addresses while the CIDR forms
`"10.0.0.0/8"` and `"2001::/16"` classify as networks. -/
theorem C5_ip_address_classified_before_network :
    (∀ (s : String) (v : IpValue), ip_address s.data = some v →
        _hostname_to_x509 (.pyStr s) = .ok (.ipAddress v)) ∧
    _hostname_to_x509 (.pyStr "127.0.0.1") = .ok (.ipAddress (.v4 2130706433)) ∧
    _hostname_to_x509 (.pyStr "::1") = .ok (.ipAddress (.v6 1)) ∧
    _hostname_to_x509 (.pyStr "10.0.0.0/8") = .ok (.ipAddress (.v4net 167772160 8)) ∧
    _hostname_to_x509 (.pyStr "2001::/16") = .ok (.ipAddress (.v6net (8193 * 2 ^ 112) 16)) := by
  refine ⟨?_, by decide, by decide, by decide, by decide⟩
  intro s v hv
  simp only [_hostname_to_x509, hv]

/-- C5 witness: the general conjunct applied at `"127.0.0.1"`. -/
theorem C5_witness :
    ip_address ("127.0.0.1" : String).data = some (.v4 2130706433) ∧
    _hostname_to_x509 (.pyStr "127.0.0.1") = .ok (.ipAddress (.v4 2130706433)) :=
  ⟨by decide, C5_ip_address_classified_before_network.1 "127.0.0.1" _ (by decide)⟩

/-- C6: a hostname that is neither an address nor a network becomes a
DNSName holding the IDNA/UTS-46 ASCII-compatible encoding; a leading
`*.` is stripped before encoding and re-prepended afterwards.
`"*.example.com"` round-trips unchanged and `"café.example.com"` encodes
to its A-label form. -/
theorem C6_dns_names_idna_encoded_with_wildcard :
    (∀ (s : String) (a : List Char),
        s.data.take 2 = ['*', '.'] →
        ip_address s.data = none → ip_network s.data = none →
        idna_encode (s.data.drop 2) = .ok a →
        _hostname_to_x509 (.pyStr s) = .ok (.dnsName (String.mk ('*' :: '.' :: a)))) ∧
    (∀ (s : String) (a : List Char),
        s.data.take 2 ≠ ['*', '.'] →
        ip_address s.data = none → ip_network s.data = none →
        idna_encode s.data = .ok a →
        _hostname_to_x509 (.pyStr s) = .ok (.dnsName (String.mk a))) ∧
    _hostname_to_x509 (.pyStr "*.example.com") = .ok (.dnsName "*.example.com") ∧
    _hostname_to_x509 (.pyStr "café.example.com") = .ok (.dnsName "xn--caf-dma.example.com") := by
  refine ⟨?_, ?_, by decide, by decide⟩
  · intro s a htake hip hnet henc
    simp only [_hostname_to_x509, hip, hnet, if_pos htake, henc]
  · intro s a htake hip hnet henc
    simp only [_hostname_to_x509, hip, hnet, if_neg htake, henc]

/-- C6 witness: the wildcard conjunct applied at `"*.café.example.com"`,
whose encoded form re-prepends the wildcard marker. -/
theorem C6_witness :
    ("*.café.example.com" : String).data.take 2 = ['*', '.'] ∧
    ip_address ("*.café.example.com" : String).data = none ∧
    ip_network ("*.café.example.com" : String).data = none ∧
    idna_encode (("*.café.example.com" : String).data.drop 2)
        = .ok ("xn--caf-dma.example.com" : String).data ∧
    _hostname_to_x509 (.pyStr "*.café.example.com")
        = .ok (.dnsName (String.mk ('*' :: '.' :: ("xn--caf-dma.example.com" : String).data))) :=
  ⟨by decide, by decide, by decide, by decide,
    C6_dns_names_idna_encoded_with_wildcard.1 "*.café.example.com"
      ("xn--caf-dma.example.com" : String).data
      (by decide) (by decide) (by decide) (by decide)⟩

/-- C8: `LeafCert.__init__` sets the combined blob to the byte
concatenation of the private key PEM, the leaf certificate PEM and the
chain PEMs in order; equivalently the key PEM followed by the
concatenation of all `cert_chain_pems`, whose zeroth entry is the leaf's
own certificate PEM. -/
theorem C8_bundle_is_concatenation_of_key_and_chain
    (private_key_pem server_cert_pem : Bytes) (chain_to_ca : List Bytes) :
    (LeafCert.init private_key_pem server_cert_pem chain_to_ca).private_key_and_cert_chain_pem.bytes
        = private_key_pem ++ server_cert_pem ++ chain_to_ca.flatten ∧
    (LeafCert.init private_key_pem server_cert_pem chain_to_ca).private_key_and_cert_chain_pem.bytes
        = private_key_pem ++
          ((LeafCert.init private_key_pem server_cert_pem chain_to_ca).cert_chain_pems.map
              Blob.bytes).flatten ∧
    (LeafCert.init private_key_pem server_cert_pem chain_to_ca).cert_chain_pems.head?
        = some ⟨server_cert_pem⟩ := by
  refine ⟨rfl, ?_, rfl⟩
  have h : ∀ l : List Bytes, (l.map Blob.mk).map Blob.bytes = l := by
    intro l
    rw [List.map_map]
    exact List.map_id l
  simp [LeafCert.init, h, Blob.bytes, List.append_assoc]

/-- C7: `issue_server_cert` fails with the `ValueError` for an empty
hostname list and only then; classifying a non-text hostname raises a
`TypeError`; and no failure (nor a success) of `issue_server_cert` ever
changes the store of existing CA objects. -/
theorem C7_issue_server_cert_error_conditions
    (i : Nat) (hostnames : List PyVal) (h : Heap) (obj : CAObj)
    (hobj : h.cas[i]? = some obj) :
    ((issue_server_cert i hostnames h).1
        = .error (.valueError "Must specify at least one hostname") ↔ hostnames = []) ∧
    (_hostname_to_x509 .nonText
        = .error (.typeError "hostnames must be text (unicode on py2, str on py3)")) ∧
    (issue_server_cert i hostnames h).2.cas = h.cas := by
  refine ⟨?_, rfl, ?_⟩
  · unfold issue_server_cert
    rw [hobj]
    dsimp only
    cases hostnames with
    | nil => simp
    | cons a as =>
      simp only [List.isEmpty_cons, Bool.false_eq_true, if_false]
      constructor
      · intro heq
        exfalso
        split at heq
        · cases heq
        · split at heq
          · rename_i hm
            cases heq
            obtain ⟨x, _, hx⟩ := mapM_error_mem _ _ _ hm
            rcases hostname_to_x509_error _ _ hx with ⟨m, hm2⟩ | ⟨m, hm2⟩ <;> cases hm2
          · cases heq
      · intro heq
        cases heq
  · unfold issue_server_cert
    split
    · rfl
    · dsimp only
      split
      · rfl
      · split
        · rfl
        · split
          · rfl
          · rfl

/-- C7 witness: the theorem applied to the one-CA heap `demoHeap` with an
empty hostname list. -/
theorem C7_witness :
    demoHeap.cas[0]? = some demoRoot ∧
    (((issue_server_cert 0 [] demoHeap).1
        = .error (.valueError "Must specify at least one hostname") ↔ ([] : List PyVal) = []) ∧
      (_hostname_to_x509 .nonText
        = .error (.typeError "hostnames must be text (unicode on py2, str on py3)")) ∧
      (issue_server_cert 0 [] demoHeap).2.cas = demoHeap.cas) :=
  ⟨by decide, C7_issue_server_cert_error_conditions 0 [] demoHeap demoRoot (by decide)⟩

theorem runOp_cas_extend (op : CAOp) (h : Heap) :
    ∃ t, (runOp op h).cas = h.cas ++ t := by
  cases op with
  | createChild i =>
    show ∃ t, (CA.init (some i) h).2.cas = h.cas ++ t
    unfold CA.init
    dsimp only
    split
    · exact ⟨[], by simp⟩
    · exact ⟨_, rfl⟩
  | issueCert i hs =>
    show ∃ t, (issue_server_cert i hs h).2.cas = h.cas ++ t
    refine ⟨[], ?_⟩
    unfold issue_server_cert
    split
    · simp
    · dsimp only
      split
      · simp
      · split
        · simp
        · split
          · simp
          · simp

/-- C9: running any sequence of `create_child_ca` / `issue_server_cert`
calls never changes an existing CA object: the heap cell of every
already-allocated CA (its parent link, private key, certificate and
certificate PEM) is the same before and after. -/
theorem C9_issuing_operations_preserve_existing_cas
    (ops : List CAOp) (h : Heap) (i : Nat) (hi : i < h.cas.length) :
    (runOps ops h).cas[i]? = h.cas[i]? := by
  induction ops generalizing h with
  | nil => rfl
  | cons op ops ih =>
    obtain ⟨t, ht⟩ := runOp_cas_extend op h
    have hlen : i < (runOp op h).cas.length := by
      rw [ht, List.length_append]
      omega
    calc (runOps (op :: ops) h).cas[i]?
        = (runOps ops (runOp op h)).cas[i]? := rfl
      _ = (runOp op h).cas[i]? := ih (runOp op h) hlen
      _ = h.cas[i]? := by rw [ht]; exact List.getElem?_append_left hi

/-- C3 amended: after `create_child_ca` applied `n` times below a fresh
root, `issue_server_cert` on the deepest CA returns a leaf whose
`cert_chain_pems` holds the leaf certificate plus exactly `n`
ancestor-chain entries (the issuer's own certificate first, the
self-signed root excluded) — `n` entries, not the claimed `n - 1`. -/
theorem C3_amended_chain_has_n_entries (n : Nat) :
    ∃ (hp h2 : Heap) (leaf : LeafCert),
      buildNested n ⟨[], 0⟩ = (.ok n, hp) ∧
      issue_server_cert n [.pyStr "example.com"] hp = (.ok leaf, h2) ∧
      leaf.cert_chain_pems.length = n + 1 := by
  obtain ⟨hp, heq, hlen, hshape⟩ := buildNested_shape n
  have hn : n < hp.cas.length := by omega
  have hlook : hp.cas[n]? = some hp.cas[n] := List.getElem?_eq_getElem hn
  obtain ⟨hpar, d, hski⟩ := hshape n _ hlook
  have hmap : [PyVal.pyStr "example.com"].mapM _hostname_to_x509
      = .ok [.dnsName "example.com"] := by decide
  obtain ⟨kb, cert, h2, hiss, _⟩ :=
    issue_server_cert_ok_spec n [.pyStr "example.com"] hp _ d _ hlook rfl hski hmap
  refine ⟨hp, h2, _, heq, hiss, ?_⟩
  rw [leafCert_chain_length]
  rw [chain_walk_length hp (fun k o hk => (hshape k o hk).1) (n + 1) n (by omega) hn]
  omega

/-- C4: when every hostname classifies successfully, the issued leaf
certificate's SAN extension holds exactly the classified entries, one
per input hostname, in input order with duplicates kept, and the
extension is critical. -/
theorem C4_san_entries_match_classified_hostnames_in_order
    (i : Nat) (hostnames : List PyVal) (h : Heap) (obj : CAObj) (d : PublicKey)
    (entries : List GeneralName)
    (hobj : h.cas[i]? = some obj)
    (hne : hostnames ≠ [])
    (hski : get_extension_for_class_SKI obj.certificate.extensions = some d)
    (hmap : hostnames.mapM _hostname_to_x509 = .ok entries) :
    entries.length = hostnames.length ∧
    ∃ (leaf : LeafCert) (h2 : Heap) (cert : Certificate),
      issue_server_cert i hostnames h = (.ok leaf, h2) ∧
      leaf.cert_chain_pems.head? = some ⟨cert.public_bytes_pem⟩ ∧
      get_extension_for_class_SAN cert.extensions = some (entries, true) := by
  refine ⟨mapM_ok_length _ _ _ hmap, ?_⟩
  obtain ⟨kb, cert, h2, hiss, hsan⟩ :=
    issue_server_cert_ok_spec i hostnames h obj d entries hobj
      (List.isEmpty_eq_false.mpr hne) hski hmap
  exact ⟨_, h2, cert, hiss, leafCert_head _ _ _, hsan⟩

/-- C4 witness: the theorem applied to the one-CA heap with a duplicated
DNS hostname and an IP hostname. -/
theorem C4_witness :
    demoHeap.cas[0]? = some demoRoot ∧
    ([.pyStr "example.com", .pyStr "example.com", .pyStr "127.0.0.1"] : List PyVal) ≠ [] ∧
    get_extension_for_class_SKI demoRoot.certificate.extensions = some ⟨0⟩ ∧
    ([.pyStr "example.com", .pyStr "example.com", .pyStr "127.0.0.1"] : List PyVal).mapM
        _hostname_to_x509
      = .ok [.dnsName "example.com", .dnsName "example.com", .ipAddress (.v4 2130706433)] ∧
    (([.dnsName "example.com", .dnsName "example.com",
        .ipAddress (.v4 2130706433)] : List GeneralName).length
        = ([.pyStr "example.com", .pyStr "example.com", .pyStr "127.0.0.1"] : List PyVal).length ∧
      ∃ (leaf : LeafCert) (h2 : Heap) (cert : Certificate),
        issue_server_cert 0 [.pyStr "example.com", .pyStr "example.com", .pyStr "127.0.0.1"]
            demoHeap = (.ok leaf, h2) ∧
        leaf.cert_chain_pems.head? = some ⟨cert.public_bytes_pem⟩ ∧
        get_extension_for_class_SAN cert.extensions
          = some ([.dnsName "example.com", .dnsName "example.com",
              .ipAddress (.v4 2130706433)], true)) :=
  ⟨by decide, by decide, by decide, by decide,
    C4_san_entries_match_classified_hostnames_in_order 0
      [.pyStr "example.com", .pyStr "example.com", .pyStr "127.0.0.1"]
      demoHeap demoRoot ⟨0⟩
      [.dnsName "example.com", .dnsName "example.com", .ipAddress (.v4 2130706433)]
      (by decide) (by decide) (by decide) (by decide)⟩

/-- C9 witness: the theorem applied to the one-CA heap `demoHeap` and a
sequence of two issuances and a grandchild creation. -/
theorem C9_witness :
    0 < demoHeap.cas.length ∧
    (runOps [.createChild 0, .issueCert 0 [.pyStr "example.com"], .createChild 1]
        demoHeap).cas[0]? = demoHeap.cas[0]? :=
  ⟨by decide,
    C9_issuing_operations_preserve_existing_cas
      [.createChild 0, .issueCert 0 [.pyStr "example.com"], .createChild 1]
      demoHeap 0 (by decide)⟩

end Trustme

namespace Trustme

/-- Success characterization of `idna_encode`: the output is a nonempty
dotted sequence of letters/digits/hyphens labels, `idna_encode` is
idempotent on it, and a digits-and-dots-only output can only be the
case-folded input itself. -/
theorem idna_encode_spec {cs u : List Char} (h : idna_encode cs = .ok u) :
    u ≠ [] ∧ (∀ c ∈ u, isXnPuny c = true ∨ c = '.') ∧ idna_encode u = .ok u ∧
      ((∀ c ∈ u, isDecDigit c = true ∨ c = '.') → u = uts46_remap cs) := by
  unfold idna_encode at h
  dsimp only at h
  split at h
  · cases h
  · rename_i hguard
    have hfix0 : ∀ p ∈ splitOnChar '.' (uts46_remap cs), p.map toLowerAscii = p :=
      fun p hp => map_id_of_fixed (fun c hc => mem_remap_fix (mem_splitOnChar hp hc))
    have hne0 : splitOnChar '.' (uts46_remap cs) ≠ [] := splitOnChar_ne_nil _ _
    have hguard2 : splitOnChar '.' (uts46_remap cs) ≠ [[]] := by
      intro heq
      apply hguard
      rw [heq]
      rfl
    cases htd : decide ((splitOnChar '.' (uts46_remap cs)).getLast? = some ([] : List Char)) with
    | false =>
      rw [htd] at h
      simp only [Bool.false_eq_true, if_false, List.append_nil] at h
      cases hm : (splitOnChar '.' (uts46_remap cs)).mapM alabel with
      | error e => rw [hm] at h; cases h
      | ok results =>
        rw [hm] at h
        dsimp only at h
        split at h
        · cases h
        · rename_i hany
          split at h
          · cases h
          · rename_i hlenOK
            cases h
            have hf2 := mapM_ok_forall2 alabel _ _ hm
            obtain ⟨hA, hB⟩ := results_facts hf2 hfix0
            have hres_ne : results ≠ [] := by
              intro h0
              have hlen := mapM_ok_length alabel _ _ hm
              rw [h0] at hlen
              exact hne0 (List.length_eq_zero.mp hlen.symm)
            have hnodot_res : ∀ r ∈ results, ∀ x ∈ r, x ≠ '.' :=
              fun r hr x hx => xnpuny_ne_dot ((hA r hr).2.1 x hx)
            have hchars : ∀ c ∈ joinWith '.' results, isXnPuny c = true ∨ c = '.' := by
              intro c hc
              rcases mem_joinWith hc with h1 | ⟨p, hp, hcp⟩
              · exact .inr h1
              · exact .inl ((hA p hp).2.1 c hcp)
            have hsplitu : splitOnChar '.' (joinWith '.' results) = results :=
              splitOnChar_joinWith hres_ne hnodot_res
            refine ⟨joinWith_ne_nil hres_ne (fun r hr => (hA r hr).1), hchars, ?_, ?_⟩
            · unfold idna_encode
              dsimp only
              rw [remap_fix_of_chars hchars, hsplitu]
              have hg : ¬((results.isEmpty || decide (results = [[]])) = true) := by
                intro hor
                rw [Bool.or_eq_true] at hor
                rcases hor with h1 | h1
                · exact hres_ne (List.isEmpty_iff.mp h1)
                · have heq := of_decide_eq_true h1
                  have hmem : ([] : List Char) ∈ results := by
                    rw [heq]
                    exact List.mem_cons_self _ _
                  exact (hA [] hmem).1 rfl
              rw [if_neg hg]
              have hlastr : results.getLast? = some (results.getLast hres_ne) :=
                List.getLast?_eq_getLast _ _
              have htd2 : decide (results.getLast? = some ([] : List Char)) = false := by
                apply decide_eq_false
                intro hc
                rw [hlastr] at hc
                exact (hA _ (List.getLast_mem hres_ne)).1 (Option.some.inj hc)
              rw [htd2]
              simp only [Bool.false_eq_true, if_false, List.append_nil]
              rw [mapM_ok_of_forall alabel results (fun r hr => (hA r hr).2.2)]
              dsimp only
              have hany2 : ¬(results.any List.isEmpty = true) := by
                intro hanyt
                obtain ⟨r, hr, hre⟩ := List.any_eq_true.mp hanyt
                exact (hA r hr).1 (List.isEmpty_iff.mp hre)
              rw [if_neg hany2, if_neg hlenOK]
            · intro hdig
              have hdig2 : ∀ r ∈ results, ∀ c ∈ r, isDecDigit c = true := by
                intro r hr c hc
                rcases hdig c (subset_joinWith hr hc) with h1 | h1
                · exact h1
                · exact absurd h1 (xnpuny_ne_dot ((hA r hr).2.1 c hc))
              rw [hB hdig2]
              exact joinWith_splitOnChar '.' (uts46_remap cs)
    | true =>
      rw [htd] at h
      simp only [eq_self_iff_true, if_true] at h
      have hlast0 : (splitOnChar '.' (uts46_remap cs)).getLast? = some ([] : List Char) :=
        of_decide_eq_true htd
      have hsplit0 : (splitOnChar '.' (uts46_remap cs)).dropLast ++ [[]]
          = splitOnChar '.' (uts46_remap cs) :=
        List.dropLast_append_getLast? _ hlast0
      have hlabne : (splitOnChar '.' (uts46_remap cs)).dropLast ≠ [] := by
        intro h0
        apply hguard2
        rw [← hsplit0, h0]
        rfl
      cases hm : ((splitOnChar '.' (uts46_remap cs)).dropLast).mapM alabel with
      | error e => rw [hm] at h; cases h
      | ok results =>
        rw [hm] at h
        dsimp only at h
        split at h
        · cases h
        · rename_i hany
          split at h
          · cases h
          · rename_i hlenOK
            cases h
            have hf2 := mapM_ok_forall2 alabel _ _ hm
            obtain ⟨hA, hB⟩ := results_facts hf2
              (fun p hp => hfix0 p (List.dropLast_subset _ hp))
            have hres_ne : results ≠ [] := by
              intro h0
              have hlen := mapM_ok_length alabel _ _ hm
              rw [h0] at hlen
              exact hlabne (List.length_eq_zero.mp hlen.symm)
            have hnodot_res : ∀ r ∈ results, ∀ x ∈ r, x ≠ '.' :=
              fun r hr x hx => xnpuny_ne_dot ((hA r hr).2.1 x hx)
            have hchars : ∀ c ∈ joinWith '.' results ++ ['.'], isXnPuny c = true ∨ c = '.' := by
              intro c hc
              rcases List.mem_append.mp hc with h1 | h1
              · rcases mem_joinWith h1 with h2 | ⟨p, hp, hcp⟩
                · exact .inr h2
                · exact .inl ((hA p hp).2.1 c hcp)
              · rcases List.mem_cons.mp h1 with h2 | h2
                · exact .inr h2
                · cases h2
            have hsplitu : splitOnChar '.' (joinWith '.' results ++ ['.'])
                = results ++ [[]] := by
              rw [splitOnChar_append_sep_nil, splitOnChar_joinWith hres_ne hnodot_res]
            refine ⟨by simp, hchars, ?_, ?_⟩
            · unfold idna_encode
              dsimp only
              rw [remap_fix_of_chars hchars, hsplitu]
              have hg : ¬(((results ++ [[]]).isEmpty
                  || decide (results ++ [[]] = [[]])) = true) := by
                intro hor
                rw [Bool.or_eq_true] at hor
                rcases hor with h1 | h1
                · have := List.isEmpty_iff.mp h1
                  exact absurd this (by simp)
                · have heq := of_decide_eq_true h1
                  have hlen1 : results.length + 1 = 1 := by
                    have := congrArg List.length heq
                    simpa using this
                  exact hres_ne (List.length_eq_zero.mp (by omega))
              rw [if_neg hg]
              have htd2 : decide ((results ++ [[]]).getLast? = some ([] : List Char)) = true :=
                decide_eq_true (List.getLast?_concat _)
              rw [htd2]
              simp only [eq_self_iff_true, if_true, List.dropLast_concat]
              rw [mapM_ok_of_forall alabel results (fun r hr => (hA r hr).2.2)]
              dsimp only
              have hany2 : ¬(results.any List.isEmpty = true) := by
                intro hanyt
                obtain ⟨r, hr, hre⟩ := List.any_eq_true.mp hanyt
                exact (hA r hr).1 (List.isEmpty_iff.mp hre)
              rw [if_neg hany2, if_neg hlenOK]
            · intro hdig
              have hdig2 : ∀ r ∈ results, ∀ c ∈ r, isDecDigit c = true := by
                intro r hr c hc
                rcases hdig c (List.mem_append.mpr (.inl (subset_joinWith hr hc))) with h1 | h1
                · exact h1
                · exact absurd h1 (xnpuny_ne_dot ((hA r hr).2.1 c hc))
              rw [hB hdig2]
              rw [← joinWith_concat_nil hlabne, hsplit0]
              exact joinWith_splitOnChar '.' (uts46_remap cs)

end Trustme

namespace Trustme

/-! ### The classifier cannot re-classify its DNS outputs as IP values -/

theorem opt_bind_none {α β : Type} (g : α → Option β) : ((none : Option α) >>= g) = none := rfl

theorem opt_bind_some {α β : Type} (x : α) (g : α → Option β) : (some x >>= g) = g x := rfl

theorem opt_pure_eq {α : Type} (x : α) : (pure x : Option α) = some x := rfl

theorem option_mapM_some_forall {α β : Type} (f : α → Option β) :
    ∀ (l : List α) (r : List β), l.mapM f = some r → ∀ x ∈ l, ∃ y, f x = some y := by
  intro l
  induction l with
  | nil => intro r _ x hx; cases hx
  | cons a as ih =>
    intro r hr x hx
    rw [List.mapM_cons] at hr
    cases hfa : f a with
    | none => rw [hfa, opt_bind_none] at hr; cases hr
    | some b =>
      rw [hfa, opt_bind_some] at hr
      cases hrest : as.mapM f with
      | none => rw [hrest, opt_bind_none] at hr; cases hr
      | some bs =>
        rcases List.mem_cons.mp hx with h1 | h1
        · subst h1; exact ⟨b, hfa⟩
        · exact ih bs hrest x h1

theorem parseOctet_digits {p : List Char} {v : Nat} (h : parseOctet p = some v) :
    ∀ c ∈ p, isDecDigit c = true := by
  intro c hc
  unfold parseOctet at h
  split at h
  · cases h
  · split at h
    · cases h
    · rename_i hall
      have hallt : p.all isDecDigit = true := by
        cases ha : p.all isDecDigit
        · rw [ha] at hall; exact absurd rfl hall
        · rfl
      exact List.all_eq_true.mp hallt c hc

theorem parseIPv4_chars {l : List Char} {v : Nat} (h : parseIPv4 l = some v) :
    ∀ c ∈ l, isDecDigit c = true ∨ c = '.' := by
  intro c hc
  unfold parseIPv4 at h
  cases hm : (splitOnChar '.' l).mapM parseOctet with
  | none => rw [hm] at h; cases h
  | some r =>
    have hall := option_mapM_some_forall parseOctet _ _ hm
    have hc2 : c ∈ joinWith '.' (splitOnChar '.' l) := by
      rw [joinWith_splitOnChar]
      exact hc
    rcases mem_joinWith hc2 with h1 | ⟨p, hp, hcp⟩
    · exact .inr h1
    · obtain ⟨y, hy⟩ := hall p hp
      exact .inl (parseOctet_digits hy c hcp)

theorem parseIPv4_none_of_bad {l : List Char} {c : Char} (hc : c ∈ l)
    (hd : isDecDigit c = false) (hdot : c ≠ '.') : parseIPv4 l = none := by
  cases hp : parseIPv4 l with
  | none => rfl
  | some v =>
    rcases parseIPv4_chars hp c hc with h1 | h1
    · rw [hd] at h1; cases h1
    · exact absurd h1 hdot

theorem parseIPv6_none_no_colon {l : List Char} (h : ∀ x ∈ l, x ≠ ':') :
    parseIPv6 l = none := by
  unfold parseIPv6
  split
  · rfl
  · dsimp only
    rw [splitOnChar_no_sep h]
    rw [if_pos (by simp)]

theorem ip_address_none {l : List Char} (h4 : parseIPv4 l = none) (h6 : parseIPv6 l = none) :
    ip_address l = none := by
  unfold ip_address
  rw [h4, h6]
  rfl

theorem ip_network_none {l : List Char} (hs : ∀ x ∈ l, x ≠ '/')
    (h4 : parseIPv4 l = none) (h6 : parseIPv6 l = none) : ip_network l = none := by
  unfold ip_network
  have hv4 : IPv4Network_from_string l = none := by
    unfold IPv4Network_from_string
    rw [splitOnChar_no_sep hs]
    dsimp only
    rw [h4]
    rfl
  rw [hv4]
  unfold IPv6Network_from_string
  rw [splitOnChar_no_sep hs]
  dsimp only
  rw [h6]
  rfl

theorem xnpuny_ne_colon {c : Char} (h : isXnPuny c = true) : c ≠ ':' := by
  intro hc
  subst hc
  exact absurd h (by decide)

theorem xnpuny_ne_slash {c : Char} (h : isXnPuny c = true) : c ≠ '/' := by
  intro hc
  subst hc
  exact absurd h (by decide)

theorem xnpuny_ne_star {c : Char} (h : isXnPuny c = true) : c ≠ '*' := by
  intro hc
  subst hc
  exact absurd h (by decide)

end Trustme
namespace Trustme

/-- C10: the claim states that classification is idempotent on its DNS
outputs.  The code disagrees: UTS-46 remapping can turn a non-IP hostname
into an IP literal.  Concretely, `"１２７.0.0.1"` (fullwidth first octet)
parses as neither an IP address nor an IP network and IDNA-encodes to
`"127.0.0.1"`, so it is classified as `DNSName "127.0.0.1"` — but
re-classifying that output text yields an `IPAddress` entry, not the same
`DNSName`. -/
theorem C10_counterexample_fullwidth_digits_break_idempotence :
    _hostname_to_x509 (.pyStr "１２７.0.0.1") = .ok (.dnsName "127.0.0.1") ∧
    _hostname_to_x509 (.pyStr "127.0.0.1") = .ok (.ipAddress (.v4 2130706433)) ∧
    (Except.ok (.ipAddress (.v4 2130706433)) : Except Err GeneralName)
      ≠ .ok (.dnsName "127.0.0.1") :=
  ⟨by decide, by decide, by decide⟩

/-- C10 (amended): classification is idempotent on those DNS outputs whose
A-label text does not itself parse as an IP address or an IP network:
feeding such a text back into classification yields a DNSName entry with
the same text, since the text IDNA-encodes to itself and wildcard outputs
re-enter the wildcard branch unchanged. -/
theorem C10_amended_dns_classification_idempotent_unless_ip (s t : String)
    (hcl : _hostname_to_x509 (.pyStr s) = .ok (.dnsName t))
    (hip : ip_address t.data = none) (hnet : ip_network t.data = none) :
    _hostname_to_x509 (.pyStr t) = .ok (.dnsName t) := by
  unfold _hostname_to_x509 at hcl
  dsimp only at hcl
  split at hcl
  · simp at hcl
  · split at hcl
    · simp at hcl
    · split at hcl
      · split at hcl
        · cases hcl
        · rename_i a henc
          cases Except.ok.inj hcl
          obtain ⟨hane, hachars, haid, _⟩ := idna_encode_spec henc
          unfold _hostname_to_x509
          dsimp only
          rw [show ip_address ('*' :: '.' :: a) = none from hip,
            show ip_network ('*' :: '.' :: a) = none from hnet]
          rw [show List.take 2 ('*' :: '.' :: a) = ['*', '.'] from rfl,
            show List.drop 2 ('*' :: '.' :: a) = a from rfl,
            if_pos (rfl : (['*', '.'] : List Char) = ['*', '.']), haid]
      · split at hcl
        · cases hcl
        · rename_i a henc
          cases Except.ok.inj hcl
          obtain ⟨hane, hachars, haid, _⟩ := idna_encode_spec henc
          have htake2 : ¬(a.take 2 = ['*', '.']) := by
            intro ht2
            have hstar : '*' ∈ a :=
              List.mem_of_mem_take (by rw [ht2]; exact List.mem_cons_self _ _)
            rcases hachars '*' hstar with h1 | h1
            · exact absurd rfl (xnpuny_ne_star h1)
            · cases h1
          unfold _hostname_to_x509
          dsimp only
          rw [show ip_address a = none from hip, show ip_network a = none from hnet]
          rw [if_neg htake2, haid]

/-- C10 witness: the amended theorem applied to the classification of
`"*.café.example.com"`, whose DNS output text parses as no IP value and
re-classifies to itself. -/
theorem C10_witness :
    _hostname_to_x509 (.pyStr "*.café.example.com")
        = .ok (.dnsName "*.xn--caf-dma.example.com") ∧
    ip_address ("*.xn--caf-dma.example.com" : String).data = none ∧
    ip_network ("*.xn--caf-dma.example.com" : String).data = none ∧
    _hostname_to_x509 (.pyStr "*.xn--caf-dma.example.com")
        = .ok (.dnsName "*.xn--caf-dma.example.com") :=
  ⟨by decide, by decide, by decide,
    C10_amended_dns_classification_idempotent_unless_ip
      "*.café.example.com" "*.xn--caf-dma.example.com"
      (by decide) (by decide) (by decide)⟩

end Trustme
